import Mathlib

/-!
Verification of the `linkcheck` tool (hack/tools/linkcheck/linkcheck.go):
a markdown link-and-anchor checker for a hugo-based documentation site.

The Go source is shallowly embedded below.  Pure helpers from the Go
standard library (`strings`, `path/filepath` on a unix separator,
`net/url` restricted to the features `linkcheck` exercises) are modelled
first; the regular expressions of the source are modelled as handwritten
matchers implementing RE2's leftmost-first semantics for those concrete
patterns; filesystem access (`os.Stat`, `os.ReadFile`) is abstracted by an
explicit filesystem record passed to the functions that consult it, and
the `filepath.Walk` traversal by an explicit list of visited entries.
-/

/- ### Basic character/list primitives -/

/-- Boolean prefix test on lists of characters (strings.HasPrefix order:
`isPrefL pre l` is true when `l` starts with `pre`). -/
def isPrefL : List Char → List Char → Bool
  | [], _ => true
  | _ :: _, [] => false
  | a :: as, b :: bs => a = b && isPrefL as bs

/-- Split a character list at every occurrence of `c` (strings.Split). -/
def splitCh (c : Char) : List Char → List (List Char)
  | [] => [[]]
  | a :: rest =>
    match splitCh c rest with
    | [] => [[]]
    | h :: t => if a = c then [] :: h :: t else (a :: h) :: t

/-- Interleave the separator character between the given chunks
(strings.Join with a one-character separator). -/
def interCh (sep : Char) : List (List Char) → List Char
  | [] => []
  | [x] => x
  | x :: xs => x ++ sep :: interCh sep xs

/-- Longest prefix satisfying `p` together with the rest of the list. -/
def spanP (p : Char → Bool) : List Char → List Char × List Char
  | [] => ([], [])
  | a :: rest =>
    if p a then
      let r := spanP p rest
      (a :: r.1, r.2)
    else ([], a :: rest)

/-- Split at the first occurrence of `c`: returns the part before it and
the part after it (the occurrence itself dropped), or `none`. -/
def takeUntil (c : Char) : List Char → Option (List Char × List Char)
  | [] => none
  | a :: rest =>
    if a = c then some ([], rest)
    else match takeUntil c rest with
      | some (pre, post) => some (a :: pre, post)
      | none => none

/- ### Go `strings` helpers used by linkcheck -/

/-- strings.HasPrefix. -/
def goHasPref (s pre : String) : Bool := isPrefL pre.data s.data

/-- strings.TrimPrefix. -/
def trimPrefGo (s pre : String) : String :=
  if isPrefL pre.data s.data then ⟨s.data.drop pre.data.length⟩ else s

/-- strings.HasSuffix. -/
def endsWithGo (s suf : String) : Bool := isPrefL suf.data.reverse s.data.reverse

/-- strings.TrimSuffix. -/
def trimSuffixGo (s suf : String) : String :=
  if isPrefL suf.data.reverse s.data.reverse then
    ⟨(s.data.reverse.drop suf.data.length).reverse⟩
  else s

/-- strings.Contains for a one-character substring. -/
def containsCh (s : String) (c : Char) : Bool := s.data.contains c

/-- strings.Join. -/
def joinSep (sep : String) : List String → String
  | [] => ""
  | [x] => x
  | x :: xs => x ++ sep ++ joinSep sep xs

/-- ASCII lower-casing (model of strings.ToLower; the pages checked are
ASCII markdown). -/
def toLowerAscii (s : String) : String :=
  ⟨s.data.map fun c => if 'A' ≤ c ∧ c ≤ 'Z' then Char.ofNat (c.toNat + 32) else c⟩

/-- The whitespace class of Go's regexp `\s`: `[\t\n\f\r ]`. -/
def regexWS (c : Char) : Bool :=
  c = ' ' || c = '\t' || c = '\n' || c = '\x0c' || c = '\r'

/-- ASCII whitespace per unicode.IsSpace (model of strings.TrimSpace's
character class, restricted to ASCII). -/
def spaceGo (c : Char) : Bool :=
  c = ' ' || c = '\t' || c = '\n' || c = '\x0b' || c = '\x0c' || c = '\r'

/-- strings.TrimSpace (ASCII model). -/
def trimSpaceGo (s : String) : String :=
  ⟨((s.data.dropWhile spaceGo).reverse.dropWhile spaceGo).reverse⟩

/-- strings.ReplaceAll with one-character patterns, replacement possibly
empty (drop) or a single character. -/
def replaceAllCh (s : String) (c : Char) (r : List Char) : String :=
  ⟨s.data.foldr (fun a acc => if a = c then r ++ acc else a :: acc) []⟩

/- ### Go `path/filepath` (unix separator) -/

/-- filepath.IsAbs. -/
def isAbsGo (s : String) : Bool :=
  match s.data with
  | '/' :: _ => true
  | _ => false

/-- The element-processing loop of filepath.Clean: empty and `.` elements
are dropped, `..` pops the previous element (or is kept / dropped at the
start of a relative / rooted path). -/
def cleanParts (rooted : Bool) (acc : List (List Char)) : List (List Char) → List (List Char)
  | [] => acc
  | p :: rest =>
    if p = [] ∨ p = ['.'] then cleanParts rooted acc rest
    else if p = ['.', '.'] then
      if acc ≠ [] ∧ acc.getLast? ≠ some ['.', '.'] then cleanParts rooted acc.dropLast rest
      else if rooted then cleanParts rooted acc rest
      else cleanParts rooted (acc ++ [['.', '.']]) rest
    else cleanParts rooted (acc ++ [p]) rest

/-- filepath.Clean on a unix separator. -/
def cleanGo (s : String) : String :=
  if s.data = [] then "."
  else
    let rooted := isAbsGo s
    let ps := cleanParts rooted [] (splitCh '/' s.data)
    if ps = [] then (if rooted then "/" else ".")
    else if rooted then ⟨'/' :: interCh '/' ps⟩
    else ⟨interCh '/' ps⟩

/-- filepath.Join: drop leading empty elements, join the rest with the
separator and clean the result (`""` when every element is empty). -/
def joinGo (elems : List String) : String :=
  match elems.dropWhile (fun e => e = "") with
  | [] => ""
  | rest => cleanGo ⟨interCh '/' (rest.map String.data)⟩

/-- filepath.Base. -/
def baseGo (s : String) : String :=
  if s.data = [] then "."
  else
    let l := (s.data.reverse.dropWhile (fun c => c = '/')).reverse
    if l = [] then "/"
    else ⟨(l.reverse.takeWhile (fun c => c ≠ '/')).reverse⟩

/-- filepath.Dir: everything up to and including the last separator,
cleaned (`.` when there is no separator). -/
def dirGo (s : String) : String :=
  cleanGo ⟨(s.data.reverse.dropWhile (fun c => c ≠ '/')).reverse⟩

/-- The scan of filepath.Ext, on the reversed character list: walk from
the end of the path, collecting characters until the first dot (returning
the extension including the dot) or the first separator (no extension). -/
def extScan (acc : List Char) : List Char → List Char
  | [] => []
  | c :: rest =>
    if c = '/' then []
    else if c = '.' then '.' :: acc
    else extScan (c :: acc) rest

/-- filepath.Ext. -/
def extGo (s : String) : String := ⟨extScan [] s.data.reverse⟩

/-- Abbreviation for the absolute path built from the given components
(used to state path-shape hypotheses). -/
def mkAbs (ps : List String) : String := ⟨'/' :: interCh '/' (ps.map String.data)⟩

/- ### Go `net/url` (the slice used by linkcheck)

linkcheck calls `url.Parse` on raw markdown link targets and on resolved
absolute file paths, and reads only `Scheme`, `Path` and `Fragment` of the
result.  The model below follows `url.Parse`: split the fragment at the
first `#`, reject control characters in the remainder, detect the scheme
per `getScheme`, cut the query at the first `?`, parse a `//authority`
prefix into the host, and percent-decode the path and the fragment.
Userinfo/port/host validation and the encoded-form bookkeeping
(`RawPath`, `RawFragment`, `ForceQuery`) are outside the model: linkcheck
never reads them. -/

/-- The fields of url.URL that linkcheck reads (plus the host and raw
query, which the parser populates on the way). -/
structure GoURL where
  scheme : String := ""
  host : String := ""
  path : String := ""
  rawQuery : String := ""
  fragment : String := ""
deriving DecidableEq, Repr

/-- A control byte per net/url's `stringContainsCTLByte`. -/
def ctlByte (c : Char) : Bool := c < ' ' || c = '\x7f'

/-- Hexadecimal digit test (net/url `ishex`). -/
def ishexGo (c : Char) : Bool :=
  ('0' ≤ c && c ≤ '9') || ('a' ≤ c && c ≤ 'f') || ('A' ≤ c && c ≤ 'F')

/-- Hexadecimal digit value (net/url `unhex`). -/
def unhexGo (c : Char) : Nat :=
  if '0' ≤ c && c ≤ '9' then c.toNat - '0'.toNat
  else if 'a' ≤ c && c ≤ 'f' then c.toNat - 'a'.toNat + 10
  else if 'A' ≤ c && c ≤ 'F' then c.toNat - 'A'.toNat + 10
  else 0

/-- Percent-decoding (net/url `unescape`): `%XX` with two hex digits is
decoded, a malformed escape is an error. -/
def unescapeGo : List Char → Except String (List Char)
  | [] => .ok []
  | c :: rest =>
    if c = '%' then
      match rest with
      | a :: b :: rest2 =>
        if ishexGo a && ishexGo b then
          match unescapeGo rest2 with
          | .ok r => .ok (Char.ofNat (unhexGo a * 16 + unhexGo b) :: r)
          | .error e => .error e
        else .error ("invalid URL escape \"" ++ ⟨['%', a, b]⟩ ++ "\"")
      | _ => .error ("invalid URL escape \"" ++ ⟨'%' :: rest.take 2⟩ ++ "\"")
    else
      match unescapeGo rest with
      | .ok r => .ok (c :: r)
      | .error e => .error e

/-- ASCII letter test. -/
def isAlphaGo (c : Char) : Bool := ('a' ≤ c && c ≤ 'z') || ('A' ≤ c && c ≤ 'Z')

/-- ASCII digit test. -/
def isDigitGo (c : Char) : Bool := '0' ≤ c && c ≤ '9'

/-- net/url `getScheme`: scan for `letter (letter|digit|+|-|.)* :`; on
success return the lower-cased scheme and the rest, otherwise the whole
input with an empty scheme.  `raw` is the full input (returned when no
scheme is present), `seen` the characters accepted so far. -/
def getSchemeGo (raw : String) (seen : List Char) : List Char → Except String (String × List Char)
  | [] => .ok ("", raw.data)
  | c :: cs =>
    if isAlphaGo c then getSchemeGo raw (seen ++ [c]) cs
    else if isDigitGo c || c = '+' || c = '-' || c = '.' then
      if seen = [] then .ok ("", raw.data)
      else getSchemeGo raw (seen ++ [c]) cs
    else if c = ':' then
      if seen = [] then .error "missing protocol scheme"
      else .ok (toLowerAscii ⟨seen⟩, cs)
    else .ok ("", raw.data)

/-- The fragment-less part of url.Parse (`parse(u, false)` in net/url). -/
def parseNoFrag (u : String) : Except String GoURL :=
  if u.data.any ctlByte then .error "net/url: invalid control character in URL"
  else match getSchemeGo u [] u.data with
    | .error e => .error e
    | .ok (scheme, rest0) =>
      -- cut the query at the first `?`
      let rest := (rest0.takeWhile (fun c => c ≠ '?'))
      let rawQuery : String := ⟨(rest0.dropWhile (fun c => c ≠ '?')).drop 1⟩
      if isPrefL ['/', '/'] rest then
        -- authority form: host up to the next `/`, path from there
        let afterSlashes := rest.drop 2
        let host : String := ⟨afterSlashes.takeWhile (fun c => c ≠ '/')⟩
        let pathRaw := afterSlashes.dropWhile (fun c => c ≠ '/')
        match unescapeGo pathRaw with
        | .error e => .error e
        | .ok p => .ok { scheme := scheme, host := host, path := ⟨p⟩, rawQuery := rawQuery }
      else
        match unescapeGo rest with
        | .error e => .error e
        | .ok p => .ok { scheme := scheme, path := ⟨p⟩, rawQuery := rawQuery }

/-- url.Parse: split the fragment at the first `#`, parse the remainder,
percent-decode the fragment.  Errors are wrapped as `parse "raw": msg`
like `*url.Error`. -/
def parseURL (raw : String) : Except String GoURL :=
  let u : String := ⟨raw.data.takeWhile (fun c => c ≠ '#')⟩
  let frag : List Char := (raw.data.dropWhile (fun c => c ≠ '#')).drop 1
  match parseNoFrag u with
  | .error e => .error ("parse \"" ++ raw ++ "\": " ++ e)
  | .ok url =>
    if raw.data.any (fun c => c = '#') then
      match unescapeGo frag with
      | .error e => .error ("parse \"" ++ raw ++ "\": " ++ e)
      | .ok f => .ok { url with fragment := ⟨f⟩ }
    else .ok url

/- ### The regular expressions of linkcheck

The four patterns are modelled as handwritten matchers with RE2's
leftmost-first semantics specialised to each concrete pattern. -/

/-- The deterministic tail `\s*>\}\}\s*$` of `refRx`. -/
def refTail (l : List Char) : Bool :=
  match (spanP regexWS l).2 with
  | '>' :: '\x7d' :: '\x7d' :: r2 => (spanP regexWS r2).2 = []
  | _ => false

/-- The quoted-value part `([^\s=]+)\"` of `refRx`, followed by its tail:
`run` is the maximal run of characters outside `[\s=]` after the opening
quote and `r7` the input after it.  Greedy matching tries the rightmost
closing quote inside the run first and backtracks leftwards. -/
def refPick (run r7 : List Char) : Option (List Char) :=
  ((List.range run.length).reverse.filterMap fun j =>
    if 1 ≤ j ∧ run.get? j = some '"' ∧ refTail (run.drop (j + 1) ++ r7) then
      some (run.take j)
    else none).head?

/-- Matcher for `refRx`:
`^\s*\{\{<\s*([\S\#]+)\s+\"([^\s=]+)\"\s*>\}\}\s*$`, returning the two
capture groups (shortcode tag and quoted value).  The pattern is anchored
at both ends, so `FindAllStringSubmatch` yields at most this one match. -/
def refMatch (s : String) : Option (String × String) :=
  match (spanP regexWS s.data).2 with
  | '\x7b' :: '\x7b' :: '<' :: r2 =>
    let tr := spanP (fun c => !regexWS c) (spanP regexWS r2).2
    if tr.1 = [] then none
    else
      let wr := spanP regexWS tr.2
      if wr.1 = [] then none
      else match wr.2 with
        | '"' :: r6 =>
          let vr := spanP (fun c => !regexWS c && c ≠ '=') r6
          match refPick vr.1 vr.2 with
          | some v => some (⟨tr.1⟩, ⟨v⟩)
          | none => none
        | _ => none
  | _ => none

/-- One attempt of `lRx` (`[^\!]\[[^\]]+\]\(([^\)]+)\)`) at the current
position: `c0` is the candidate for the `[^\!]` character.  Returns the
captured address and the input remaining after the match. -/
def tryInline (c0 : Char) (rest : List Char) : Option (List Char × List Char) :=
  if c0 = '!' then none
  else match rest with
    | '[' :: r1 =>
      match takeUntil ']' r1 with
      | some (txt, r2) =>
        if txt = [] then none
        else match r2 with
          | '(' :: r3 =>
            match takeUntil ')' r3 with
            | some (addr, r4) => if addr = [] then none else some (addr, r4)
            | none => none
          | _ => none
      | none => none
    | _ => none

/-- The scan loop of `FindAllStringSubmatch(lRx, line, -1)`: try each
start position from the left, and continue after the end of every match
(non-overlapping matches).  The fuel argument bounds the recursion; it is
initialised with the input length, which every step decreases. -/
def scanInline : Nat → List Char → List (List Char)
  | 0, _ => []
  | _ + 1, [] => []
  | fuel + 1, c :: rest =>
    match tryInline c rest with
    | some (addr, remaining) => addr :: scanInline fuel remaining
    | none => scanInline fuel rest

/-- All `lRx` captures on one line. -/
def inlineLinksGo (line : String) : List String :=
  (scanInline line.data.length line.data).map fun l => ⟨l⟩

/-- Matcher for `referencelRx`: `^\s+\[[^\]]+\]\:\s+(.+)$`.  Note the
mandatory leading whitespace `\s+`.  When everything after the colon's
whitespace run is empty, greedy backtracking hands the last whitespace
character to the `(.+)` capture. -/
def refDefMatch (line : String) : Option String :=
  let w1 := spanP regexWS line.data
  if w1.1 = [] then none
  else match w1.2 with
    | '[' :: r2 =>
      match takeUntil ']' r2 with
      | some (idTxt, r3) =>
        if idTxt = [] then none
        else match r3 with
          | ':' :: r4 =>
            let w2 := spanP regexWS r4
            if w2.2 ≠ [] then
              if w2.1 ≠ [] ∧ ¬ w2.2.contains '\n' then some ⟨w2.2⟩ else none
            else
              match w2.1.getLast? with
              | some c => if c ≠ '\n' ∧ 2 ≤ w2.1.length then some ⟨[c]⟩ else none
              | none => none
          | _ => none
      | none => none
    | _ => none

/-- Matcher for `anchorRx` (`(?m)^\s*\#+\s*(.+)$`) on a single line.
With `(?m)` the pattern is line-anchored, so matching the body is
equivalent to matching every line separately.  When nothing follows the
hashes, greedy backtracking hands the last whitespace character (or a
trailing `#`) to the capture. -/
def anchorLineMatch (line : String) : Option String :=
  let r1 := (spanP regexWS line.data).2
  let hs := spanP (fun c => c = '#') r1
  if hs.1 = [] then none
  else
    let w2 := spanP regexWS hs.2
    if w2.2 ≠ [] then
      if ¬ w2.2.contains '\n' then some ⟨w2.2⟩ else none
    else match w2.1.getLast? with
      | some c => if c ≠ '\n' then some ⟨[c]⟩ else none
      | none => if 2 ≤ hs.1.length then some ⟨['#']⟩ else none

/- ### linkcheck data model -/

/-- The command-line configuration of linkcheck (`root`, `hugo-folder`,
`hugo-languages`, `verbose`; `root` is made absolute by `main` before the
phases run). -/
structure Config where
  root : String
  hugoFolder : String
  hugoLanguages : List String := ["en"]
  verbose : Bool := false
deriving DecidableEq, Repr

/-- `link`: a link found on a page. -/
structure Link where
  rawLink : String
  lineNumber : Nat
  fatalError : String := ""
  URL : Option GoURL := none
deriving DecidableEq, Repr

/-- `page`: a page validated by linkcheck. -/
structure Page where
  path : String
  fatalError : String := ""
  isHugoPage : Bool := false
  hugoLanguage : String := ""
  hugoPath : String := ""
  links : List Link := []
  anchors : List String := []
deriving DecidableEq, Repr

/-- Result of `os.Stat` on one path. -/
inductive FileStat where
  | notExist
  | file
  | dir
  | statError (msg : String)
deriving DecidableEq, Repr

/-- The filesystem abstraction: `stat` models `os.Stat`, `read` models
`os.ReadFile`. -/
structure FS where
  stat : String → FileStat
  read : String → Except String String

/-- One callback invocation of `filepath.Walk`: the visited path and the
walk error passed for it (if any). -/
structure WalkEvent where
  path : String
  err : Option String := none

/- ### linkcheck functions -/

/-- One iteration of the language loop in `newPage`: when the language's
directory is a string prefix of the path, record the language and the
path relative to its directory (a later matching language overwrites an
earlier one). -/
def langStep (path contentDir : String) (q : Page) (l : String) : Page :=
  let languageDir := joinGo [contentDir, l]
  if goHasPref path languageDir then
    { q with hugoLanguage := l, hugoPath := trimPrefGo path languageDir }
  else q

/-- `newPage`: classify a file path.  A page is a hugo page when its path
has the joined `<root>/<hugoFolder>/content` directory as a string
prefix; among hugo pages the language is the last configured language
whose directory is a string prefix of the path, and a hugo page matching
no language gets a fatal classification error. -/
def newPage (cfg : Config) (path : String) : Page :=
  let contentDir := joinGo [cfg.root, cfg.hugoFolder, "content"]
  let p : Page := { path := path }
  if goHasPref path contentDir then
    let p := { p with isHugoPage := true }
    match cfg.hugoLanguages with
    | [] => p
    | _ :: _ =>
      let p := cfg.hugoLanguages.foldl (langStep path contentDir) p
      if p.hugoLanguage = "" then
        { p with fatalError :=
            "hugo page " ++ trimPrefGo path contentDir ++
            " does not belong to one of the know languages: " ++
            joinSep ", " cfg.hugoLanguages }
      else p
  else p

/-- `newPageWithFatalError`. -/
def newPageWithFatalError (path errMsg : String) : Page :=
  { path := path, fatalError := errMsg }

/-- `splitPathAndFragment`: split at the first `#`; the fragment keeps
the leading `#`. -/
def splitPathAndFragment (addr : String) : String × String :=
  if containsCh addr '#' then
    (⟨addr.data.takeWhile (fun c => c ≠ '#')⟩, ⟨addr.data.dropWhile (fun c => c ≠ '#')⟩)
  else (addr, "")

/-- The plain-markdown part of `parseLink` (everything after the
shortcode check): split path and fragment, reject `_index.md` references
and `.md` extensions. -/
def parseLinkPlain (rawLink : String) : Except String (String × String × String) :=
  if baseGo (splitPathAndFragment rawLink).1 = "_index.md" then
    .error ("links must not end with _index.md, use \"" ++
      dirGo (splitPathAndFragment rawLink).1 ++ "/\" instead")
  else if extGo (splitPathAndFragment rawLink).1 = ".md" then
    .error ("links must not have .md extension, use \"" ++
      trimSuffixGo (splitPathAndFragment rawLink).1 ".md" ++
      (splitPathAndFragment rawLink).2 ++ "\" instead")
  else .ok ((splitPathAndFragment rawLink).1, (splitPathAndFragment rawLink).2, "")

/-- `parseLink`: reject ref/refLink shortcodes, split path and fragment,
reject `_index.md` references and `.md` extensions; returns
`(path, fragment, language)` (the language is never populated). -/
def parseLink (rawLink : String) : Except String (String × String × String) :=
  match refMatch rawLink with
  | some (tag, value) =>
    if tag = "ref" ∨ tag = "refLink" then
      .error ("ref/refLink shortcodes must not be used, use \"" ++ value ++ "\" instead")
    else parseLinkPlain rawLink
  | none => parseLinkPlain rawLink

/-- `isDirectory`: `os.Stat`, with a missing file reported as
"not a directory" and any other stat failure as an error. -/
def isDirectory (fs : FS) (path : String) : Except String Bool :=
  match fs.stat path with
  | .notExist => .ok false
  | .file => .ok false
  | .dir => .ok true
  | .statError e => .error e

/-- `page.addLink`: parse the raw link and append exactly one `link`
record: an external URL verbatim (with line number 1), a resolved
absolute file target for scheme-less links on hugo pages, or a fatal
error. -/
def addLink (cfg : Config) (fs : FS) (p : Page) (l : String) (lineNumber : Nat) : Page :=
  match parseURL l with
  | .error e =>
    { p with links := p.links ++
        [{ rawLink := l, lineNumber := lineNumber, fatalError := "error parsing url: " ++ e }] }
  | .ok u =>
    -- no scheme is considered a file url
    if u.scheme = "" then
      if ¬ p.isHugoPage then
        { p with links := p.links ++
            [{ rawLink := l, lineNumber := lineNumber,
               fatalError := "scheme is required on links outside the hugo website" }] }
      else
        match parseLink l with
        | .error e =>
          { p with links := p.links ++
              [{ rawLink := l, lineNumber := lineNumber, fatalError := e }] }
        | .ok (path0, fragment, language0) =>
          -- an empty path is a fragment pointing to an anchor on the current page
          let path1 := if path0 = "" then trimSuffixGo (baseGo p.hugoPath) ".md" else path0
          let path2 := if ¬ isAbsGo path1 then joinGo [dirGo p.hugoPath, path1] else path1
          let contentDir := joinGo [cfg.root, cfg.hugoFolder, "content"]
          let language := if language0 = "" then p.hugoLanguage else language0
          let rawURL := joinGo [contentDir, language, path2]
          match isDirectory fs rawURL with
          | .error e =>
            { p with links := p.links ++
                [{ rawLink := l, lineNumber := lineNumber,
                   fatalError := "error checking if path is a directory: " ++ e }] }
          | .ok isDir =>
            let rawURL := if isDir then joinGo [rawURL, "_index.md"] else rawURL ++ ".md"
            let rawURL := if fragment ≠ "" then rawURL ++ fragment else rawURL
            match parseURL rawURL with
            | .error e =>
              { p with links := p.links ++
                  [{ rawLink := l, lineNumber := lineNumber,
                     fatalError := "error parsing url: " ++ e }] }
            | .ok URL =>
              { p with links := p.links ++
                  [{ rawLink := l, lineNumber := lineNumber, URL := some URL }] }
    else
      -- an http/https url is used as it is; note the hard-coded line number 1
      { p with links := p.links ++ [{ rawLink := l, lineNumber := 1, URL := some u }] }

/-- `readMarkdownAnchors`: every line matching the header pattern yields
one anchor, lower-cased and trimmed, spaces replaced by `-` and `/`
removed. -/
def readMarkdownAnchors (body : String) : List String :=
  ((splitCh '\n' body.data).filterMap fun l => anchorLineMatch ⟨l⟩).map fun m =>
    replaceAllCh (replaceAllCh (toLowerAscii (trimSpaceGo m)) ' ' ['-']) '/' []

/-- `readMarkdownLineLinks`: the `lRx` captures of the line followed by
the `referencelRx` capture (at most one, since that pattern is
anchored). -/
def readMarkdownLineLinks (line : String) : List String :=
  inlineLinksGo line ++
    (match refDefMatch line with
     | some a => [a]
     | none => [])

/-- Add all raw links of one line to the page. -/
def addLinkList (cfg : Config) (fs : FS) (p : Page) (ls : List String) (n : Nat) : Page :=
  ls.foldl (fun q l => addLink cfg fs q l n) p

/-- The line loop of `readMarkdownPage`: line `i` (0-based) is processed
with line number `i + 1`. -/
def addLines (cfg : Config) (fs : FS) : Page → List String → Nat → Page
  | p, [], _ => p
  | p, line :: rest, i =>
    addLines cfg fs (addLinkList cfg fs p (readMarkdownLineLinks line) (i + 1)) rest (i + 1)

/-- `readMarkdownPage`: classify the page, read it (a read failure is a
page-level fatal error), collect anchors, then add the links of every
line. -/
def readMarkdownPage (cfg : Config) (fs : FS) (path : String) : Page :=
  let p := newPage cfg path
  match fs.read path with
  | .error e => { p with fatalError := "Error reading content: " ++ e }
  | .ok content =>
    let p := { p with anchors := readMarkdownAnchors content }
    addLines cfg fs p ((splitCh '\n' content.data).map fun l => ⟨l⟩) 0

/- ### Discovery, validation and report -/

/-- One callback invocation of the `filepath.Walk` in `readAll`: a walk
error produces a fatal-error page for the visited path (whatever its
extension); otherwise only `.md` paths are read into pages.  The second
component is the error the callback returns to the walker — literally
always `none` in the source. -/
def walkStep (cfg : Config) (fs : FS) (acc : List Page) (e : WalkEvent) :
    List Page × Option String :=
  match e.err with
  | some msg =>
    (acc ++ [newPageWithFatalError e.path ("Error walking path " ++ e.path ++ ": " ++ msg)],
     none)
  | none =>
    (if extGo e.path = ".md" then acc ++ [readMarkdownPage cfg fs e.path] else acc, none)

/-- The walk over all visited entries; a callback error would abort the
remaining traversal and become the walker's return value. -/
def walkAll (cfg : Config) (fs : FS) (events : List WalkEvent) :
    List Page × Option String :=
  events.foldl
    (fun st e => match st.2 with
      | some _ => st
      | none => walkStep cfg fs st.1 e)
    ([], none)

/-- `readAll`: run the walk; a non-nil walker result is wrapped into an
error (dead in practice, since the callback always returns nil). -/
def readAllGo (cfg : Config) (fs : FS) (events : List WalkEvent) :
    Except String (List Page) :=
  match walkAll cfg fs events with
  | (ps, none) => .ok ps
  | (_, some e) => .error ("Error walking path " ++ cfg.root ++ ": " ++ e)

/-- The `pagesByPath` registry: a map keyed by path, later inserts
overwriting earlier ones. -/
def pagesByPathGo (pages : List Page) (q : String) : Option Page :=
  (pages.filter fun p => p.path = q).getLast?

/-- `page.logPath`. -/
def logPath (cfg : Config) (p : Page) : String :=
  if p.isHugoPage then "<site>/content/" ++ p.hugoLanguage ++ p.hugoPath
  else "<root>/" ++ trimPrefGo p.path cfg.root

/-- The per-link loop body of `linkcheckPage`: scheme-less links must
point at an existing path, registered as a page, and (when a fragment is
present) at one of the target page's anchors. -/
def checkLink (cfg : Config) (fs : FS) (registry : String → Option Page) (l : Link) : Link :=
  if l.fatalError ≠ "" then l
  else match l.URL with
    | none => l  -- unreachable: a link without fatal error always has a URL
    | some u =>
      if u.scheme = "" then
        match fs.stat u.path with
        | .notExist =>
          { l with fatalError :=
              "the link resolves to " ++ trimPrefGo u.path cfg.root ++ " which does not exist" }
        | _ =>
          -- any other stat outcome falls through to the registry lookup
          match registry u.path with
          | none =>
            { l with fatalError :=
                "the link resolves to " ++ u.path ++ " which has not been processed by linkcheck" }
          | some targetp =>
            if u.fragment ≠ "" then
              if targetp.anchors.contains u.fragment then l
              else
                { l with fatalError :=
                    "#" ++ u.fragment ++ " does exists in " ++ logPath cfg targetp }
            else l
      else l

/-- `linkcheckPage` on the page itself (the registry lookup of the page's
own path, which panics when absent, is total here: `linkcheckAll` only
passes paths of registered pages). -/
def linkcheckPage (cfg : Config) (fs : FS) (registry : String → Option Page) (p : Page) : Page :=
  if p.fatalError ≠ "" then p
  else { p with links := p.links.map (checkLink cfg fs registry) }

/-- `linkcheckAll`: validate every page against the registry built from
the discovery result (the source always returns nil). -/
def linkcheckAllGo (cfg : Config) (fs : FS) (pages : List Page) : List Page :=
  pages.map (linkcheckPage cfg fs (pagesByPathGo pages))

/-- Lexicographic order on the characters of the page paths, modelling
Go's `<` on strings for the sort in `main`. -/
def charListLt : List Char → List Char → Bool
  | [], [] => false
  | [], _ :: _ => true
  | _ :: _, [] => false
  | a :: as, b :: bs => if a = b then charListLt as bs else decide (a < b)

/-- Stable insertion of a page into a sorted list: equal keys keep their
existing order. -/
def insertByPath (x : Page) : List Page → List Page
  | [] => [x]
  | y :: ys => if charListLt x.path.data y.path.data then x :: y :: ys else y :: insertByPath x ys

/-- `sort.SliceStable(pages, pages[i].path < pages[j].path)`. -/
def sortStableByPath (pages : List Page) : List Page :=
  pages.foldl (fun acc p => insertByPath p acc) []

/-- The report block printed for the links of one page (the inner loop of
`main`): an ERROR line per failed link, an OK line per good link in
verbose mode, and the count of failed links. -/
def linkReport (cfg : Config) (ls : List Link) : String × Nat × Bool :=
  ls.foldl
    (fun (st : String × Nat × Bool) l =>
      if l.fatalError ≠ "" then
        (st.1 ++ " - ERROR: line " ++ toString l.lineNumber ++ ", " ++ l.rawLink ++ ": " ++
          l.fatalError ++ "\n", st.2.1 + 1, true)
      else if cfg.verbose then
        (st.1 ++ " - OK: line " ++ toString l.lineNumber ++ ", " ++ l.rawLink ++ "\n",
         st.2.1, st.2.2)
      else st)
    ("", 0, false)

/-- The report block printed for one page in `main`. -/
def pageReport (cfg : Config) (p : Page) : String × Bool :=
  let s := "PAGE: " ++ logPath cfg p ++ "\n"
  if p.fatalError ≠ "" then
    (s ++ "\n" ++ " - ERROR: " ++ p.fatalError ++ "\n", true)
  else
    let tr := linkReport cfg p.links
    let s := s ++
      (if tr.2.1 = 0 then "      " ++ toString p.links.length ++ " links, no errors\n\n"
       else "      " ++ toString p.links.length ++ " links, " ++ toString tr.2.1 ++ " errors\n\n")
    let s := if tr.1 ≠ "" then s ++ tr.1 ++ "\n" else s
    (s, tr.2.2)

/-- The whole report loop of `main` (lines printed to standard output):
the leading blank line, each page's block when verbose or failing, and
the final totals line. -/
def buildReport (cfg : Config) (pages : List Page) : String :=
  let body := pages.foldl
    (fun (st : String × Nat × Nat) p =>
      let pr := pageReport cfg p
      ((if cfg.verbose ∨ pr.2 then st.1 ++ pr.1 else st.1),
       st.2.1 + p.links.length, st.2.2 + p.anchors.length))
    ("", 0, 0)
  "\n" ++ body.1 ++
    "Total page processed: " ++ toString pages.length ++ " links: " ++ toString body.2.1 ++
    " anchors: " ++ toString body.2.2 ++ " \n"

/-- `main` after the flag handling: run discovery (whose error branch
exits 1 but is dead: the walk callback never returns an error),
validation (which always returns nil), sort the pages, and print the
report.  The result is the final page state, the report text, and the
process exit status — which is 0 on every path that reaches the report:
no fatal error recorded on a page or link ever changes it. -/
def mainRun (cfg : Config) (fs : FS) (events : List WalkEvent) :
    List Page × String × Nat :=
  match readAllGo cfg fs events with
  | .error e => ([], "ERROR: failed to read pages: " ++ e ++ "\n", 1)
  | .ok pages =>
    let pages := linkcheckAllGo cfg fs pages
    let pages := sortStableByPath pages
    (pages, buildReport cfg pages, 0)

/-- Whether any page or link carries a fatal error after validation. -/
def hasFatalErrors (pages : List Page) : Bool :=
  pages.any fun p => p.fatalError ≠ "" || p.links.any fun l => l.fatalError ≠ ""

/- ### Derived definitions used by the statements -/

/-- Whether `parseLink` classifies the raw link as a forbidden
ref/refLink shortcode (the condition of its first rejection). -/
def isRefShortcode (raw : String) : Bool :=
  match refMatch raw with
  | some (tag, _) => tag = "ref" || tag = "refLink"
  | none => false

/-- All raw link strings extracted from a page body, in occurrence order:
the per-line extraction of `readMarkdownPage`'s loop, concatenated. -/
def extractLinks (content : String) : List String :=
  ((splitCh '\n' content.data).map fun l => readMarkdownLineLinks ⟨l⟩).flatten

/-- The pages contributed by one walk event (the effect of one callback
invocation of `readAll` on the page list). -/
def eventPages (cfg : Config) (fs : FS) (e : WalkEvent) : List Page :=
  match e.err with
  | some msg => [newPageWithFatalError e.path ("Error walking path " ++ e.path ++ ": " ++ msg)]
  | none => if extGo e.path = ".md" then [readMarkdownPage cfg fs e.path] else []

/-- All pages produced by the walk, eventwise. -/
def walkPages (cfg : Config) (fs : FS) (events : List WalkEvent) : List Page :=
  (events.map (eventPages cfg fs)).flatten

/-- A path component that resolution treats transparently: non-empty, not
a dot element, and free of separators and of the characters that are
special to `url.Parse` (`#`, `%`, `?`) or rejected by it (control
bytes). -/
def plainChar (c : Char) : Bool :=
  c ≠ '/' && c ≠ '#' && c ≠ '%' && c ≠ '?' && !ctlByte c

/-- A well-formed path component. -/
def goodPart (s : String) : Bool :=
  s ≠ "" && s ≠ "." && s ≠ ".." && s.data.all plainChar

/-- A list of well-formed path components. -/
def goodParts (l : List String) : Bool := l.all goodPart

/- ### Concrete fixtures for the closed statements -/

/-- The configuration of the Go unit tests: root `/root`, hugo folder
`hugo`, languages `["en"]`. -/
def cfgFix : Config := { root := "/root", hugoFolder := "hugo" }

/-- A filesystem on which every path is missing. -/
def fsEmpty : FS := { stat := fun _ => .notExist, read := fun _ => .error "file does not exist" }

/-- A filesystem carrying one markdown page whose text repeats the same
inline link twice. -/
def fsDupLinks : FS :=
  { stat := fun _ => .notExist
    read := fun q =>
      if q = "/root/p.md" then .ok "a [x](https://e.com) b [y](https://e.com)"
      else .error "file does not exist" }

/-- A filesystem where a directory sits next to the page
`/root/hugo/content/en/folder/test.md`, named like the page without its
extension. -/
def fsShadowDir : FS :=
  { stat := fun q => if q = "/root/hugo/content/en/folder/test" then .dir else .notExist
    read := fun _ => .error "file does not exist" }

/- ### Basic lemmas about the string model -/

theorem strMk_eq_iff (a b : List Char) : (⟨a⟩ : String) = ⟨b⟩ ↔ a = b :=
  ⟨fun h => congrArg String.data h, fun h => h ▸ rfl⟩

theorem strAppend_data (a b : String) : (a ++ b).data = a.data ++ b.data := rfl

theorem strNe_empty_iff (a : String) : a ≠ "" ↔ a.data ≠ [] := by
  constructor
  · intro h hd
    exact h (String.ext hd)
  · intro h hd
    exact h (congrArg String.data hd)

theorem strAppend_ne_empty (a b : String) (h : a ≠ "") : a ++ b ≠ "" := by
  rw [strNe_empty_iff] at h ⊢
  rw [strAppend_data]
  intro hc
  exact h (List.append_eq_nil.mp hc).1

theorem isPrefL_iff (p : List Char) : ∀ l, isPrefL p l = true ↔ ∃ t, l = p ++ t := by
  induction p with
  | nil =>
    intro l
    simp [isPrefL]
  | cons a as ih =>
    intro l
    cases l with
    | nil =>
      simp [isPrefL]
    | cons b bs =>
      simp only [isPrefL, Bool.and_eq_true, decide_eq_true_eq, ih bs, List.cons_append,
        List.cons.injEq]
      constructor
      · rintro ⟨rfl, t, rfl⟩
        exact ⟨t, rfl, rfl⟩
      · rintro ⟨t, rfl, rfl⟩
        exact ⟨rfl, t, rfl⟩

theorem isPrefL_self_append (p t : List Char) : isPrefL p (p ++ t) = true :=
  (isPrefL_iff p (p ++ t)).mpr ⟨t, rfl⟩

theorem trimSuffixGo_of_append (s suf : String) : trimSuffixGo (s ++ suf) suf = s := by
  unfold trimSuffixGo
  rw [strAppend_data, List.reverse_append, if_pos (isPrefL_self_append _ _)]
  apply String.ext
  show ((suf.data.reverse ++ s.data.reverse).drop suf.data.length).reverse = s.data
  rw [show suf.data.length = suf.data.reverse.length from (List.length_reverse _).symm,
    List.drop_left, List.reverse_reverse]

/- ### Shape of `addLink` -/

theorem parseLinkPlain_error_ne (l e : String) (h : parseLinkPlain l = .error e) : e ≠ "" := by
  unfold parseLinkPlain at h
  split at h
  · simp only [Except.error.injEq] at h
    subst h
    exact strAppend_ne_empty _ _ (strAppend_ne_empty _ _ (by decide))
  · split at h
    · simp only [Except.error.injEq] at h
      subst h
      exact strAppend_ne_empty _ _ (strAppend_ne_empty _ _ (strAppend_ne_empty _ _ (by decide)))
    · simp at h

theorem parseLink_error_ne (l e : String) (h : parseLink l = .error e) : e ≠ "" := by
  unfold parseLink at h
  split at h
  · split at h
    · simp only [Except.error.injEq] at h
      subst h
      exact strAppend_ne_empty _ _ (strAppend_ne_empty _ _ (by decide))
    · exact parseLinkPlain_error_ne _ _ h
  · exact parseLinkPlain_error_ne _ _ h

/-- Every call of `addLink` appends exactly one link record, carrying the
raw string, the line number (hard-coded to 1 when the parsed URL has a
scheme), and either a URL or a non-empty fatal error. -/
theorem addLink_shape (cfg : Config) (fs : FS) (p : Page) (l : String) (n : Nat) :
    ∃ lk : Link,
      addLink cfg fs p l n = { p with links := p.links ++ [lk] } ∧
      lk.rawLink = l ∧
      lk.lineNumber = (match parseURL l with
        | .ok u => if u.scheme = "" then n else 1
        | .error _ => n) ∧
      ((lk.URL.isSome = true ∧ lk.fatalError = "") ∨ (lk.URL = none ∧ lk.fatalError ≠ "")) := by
  unfold addLink
  split
  case h_1 e heq =>
    refine ⟨_, rfl, rfl, by rw [heq], Or.inr ⟨rfl, ?_⟩⟩
    show "error parsing url: " ++ e ≠ ""
    exact strAppend_ne_empty _ _ (by decide)
  case h_2 u heq =>
    split
    · rename_i hs
      split
      · refine ⟨_, rfl, rfl, by rw [heq]; simp [hs], Or.inr ⟨rfl, ?_⟩⟩
        show "scheme is required on links outside the hugo website" ≠ ""
        decide
      · split
        case h_1 e hpl =>
          exact ⟨_, rfl, rfl, by rw [heq]; simp [hs], Or.inr ⟨rfl, parseLink_error_ne _ _ hpl⟩⟩
        case h_2 path0 fragment language0 hpl =>
          dsimp only
          split
          case h_1 e hd =>
            refine ⟨_, rfl, rfl, by rw [heq]; simp [hs], Or.inr ⟨rfl, ?_⟩⟩
            show "error checking if path is a directory: " ++ e ≠ ""
            exact strAppend_ne_empty _ _ (by decide)
          case h_2 isDir hd =>
            split
            case h_1 e hu2 =>
              refine ⟨_, rfl, rfl, by rw [heq]; simp [hs], Or.inr ⟨rfl, ?_⟩⟩
              show "error parsing url: " ++ e ≠ ""
              exact strAppend_ne_empty _ _ (by decide)
            case h_2 URL hu2 =>
              exact ⟨_, rfl, rfl, by rw [heq]; simp [hs], Or.inl ⟨rfl, rfl⟩⟩
    · rename_i hs
      exact ⟨_, rfl, rfl, by rw [heq]; simp [hs], Or.inl ⟨rfl, rfl⟩⟩

/- ### Claim C9 -/

/-- C9: after `addLink` completes, the appended link has exactly one of a
resolved target URL or a non-empty fatal error — never both and never
neither — for every raw link string and every owning page state. -/
theorem c9_resolved_target_xor_fatal_error (cfg : Config) (fs : FS) (p : Page)
    (l : String) (n : Nat) :
    ∃ lk : Link, (addLink cfg fs p l n).links = p.links ++ [lk] ∧
      ((lk.URL.isSome = true ∧ lk.fatalError = "") ∨ (lk.URL = none ∧ lk.fatalError ≠ "")) := by
  obtain ⟨lk, h1, _, _, h4⟩ := addLink_shape cfg fs p l n
  exact ⟨lk, by rw [h1], h4⟩

/- ### Claim C10 -/

/-- C10: `addLink` records the line number as the constant 1 for every
link whose parsed URL carries a scheme, whatever line number argument is
passed in, while scheme-less links record the actual line number. -/
theorem c10_external_link_line_number_constant_one (cfg : Config) (fs : FS) (p : Page)
    (l : String) (n : Nat) (u : GoURL) (hu : parseURL l = .ok u) :
    ∃ lk : Link, (addLink cfg fs p l n).links = p.links ++ [lk] ∧ lk.rawLink = l ∧
      lk.lineNumber = (if u.scheme = "" then n else 1) := by
  obtain ⟨lk, h1, h2, h3, _⟩ := addLink_shape cfg fs p l n
  refine ⟨lk, by rw [h1], h2, ?_⟩
  rw [h3, hu]

/-- Witness for C10: an external link found on line 99 is recorded with
line number 1, a scheme-less one with its own line number. -/
theorem c10_external_link_line_number_constant_one_witness :
    parseURL "https://www.google.com" = .ok ⟨"https", "www.google.com", "", "", ""⟩ ∧
    (∃ lk : Link,
      (addLink cfgFix fsEmpty (newPage cfgFix "/root/test.md") "https://www.google.com" 99).links =
        (newPage cfgFix "/root/test.md").links ++ [lk] ∧
      lk.rawLink = "https://www.google.com" ∧ lk.lineNumber = 1) := by
  refine ⟨rfl, ?_⟩
  obtain ⟨lk, h1, h2, h3⟩ :=
    c10_external_link_line_number_constant_one cfgFix fsEmpty (newPage cfgFix "/root/test.md")
      "https://www.google.com" 99 ⟨"https", "www.google.com", "", "", ""⟩ rfl
  exact ⟨lk, h1, h2, by rw [h3]; decide⟩

/- ### Claim C8 -/

/-- C8: a link without URL scheme on a page outside the localized content
tree gets the link-level fatal error "scheme is required on links outside
the hugo website" and no resolved target. -/
theorem c8_schemeless_link_outside_hugo_fatal (cfg : Config) (fs : FS) (p : Page)
    (l : String) (n : Nat) (u : GoURL)
    (hu : parseURL l = .ok u) (hs : u.scheme = "") (hp : p.isHugoPage = false) :
    addLink cfg fs p l n = { p with links := p.links ++
      [{ rawLink := l, lineNumber := n,
         fatalError := "scheme is required on links outside the hugo website",
         URL := none }] } := by
  simp [addLink, hu, hs, hp]

/-- Witness for C8: the scheme-less link `another-page.md` on the
non-hugo page `/root/test.md` gets the policy error. -/
theorem c8_schemeless_link_outside_hugo_fatal_witness :
    parseURL "another-page.md" = .ok ⟨"", "", "another-page.md", "", ""⟩ ∧
    (⟨"", "", "another-page.md", "", ""⟩ : GoURL).scheme = "" ∧
    (newPage cfgFix "/root/test.md").isHugoPage = false ∧
    addLink cfgFix fsEmpty (newPage cfgFix "/root/test.md") "another-page.md" 3 =
      { newPage cfgFix "/root/test.md" with links := (newPage cfgFix "/root/test.md").links ++
        [{ rawLink := "another-page.md", lineNumber := 3,
           fatalError := "scheme is required on links outside the hugo website",
           URL := none }] } :=
  ⟨rfl, rfl, by decide,
   c8_schemeless_link_outside_hugo_fatal cfgFix fsEmpty (newPage cfgFix "/root/test.md")
     "another-page.md" 3 ⟨"", "", "another-page.md", "", ""⟩ rfl rfl (by decide)⟩

/- ### Claim C5 -/

/-- C5: the reference-definition extractor misses definitions at the
start of a line: `referencelRx` demands at least one leading whitespace
character (`^\s+`), so the canonical form `[id]: target` in column 0
yields no link, while the same line preceded by a space does. -/
theorem c5_reference_definition_needs_leading_whitespace :
    readMarkdownLineLinks "[id]: https://example.com" = [] ∧
    readMarkdownLineLinks " [id]: https://example.com" = ["https://example.com"] := by
  decide

/- ### Walk and main lemmas -/

theorem walkFold_snd_none (cfg : Config) (fs : FS) :
    ∀ (events : List WalkEvent) (acc : List Page),
      (events.foldl
        (fun st e => match st.2 with
          | some _ => st
          | none => walkStep cfg fs st.1 e)
        (acc, none)).2 = none := by
  intro events
  induction events with
  | nil => intro acc; rfl
  | cons e rest ih =>
    intro acc
    rw [List.foldl_cons]
    show (rest.foldl _ (walkStep cfg fs acc e)).2 = none
    cases he : e.err with
    | some m =>
      rw [show walkStep cfg fs acc e =
        (acc ++ [newPageWithFatalError e.path ("Error walking path " ++ e.path ++ ": " ++ m)],
         none) from by simp [walkStep, he]]
      exact ih _
    | none =>
      rw [show walkStep cfg fs acc e =
        ((if extGo e.path = ".md" then acc ++ [readMarkdownPage cfg fs e.path] else acc),
         none) from by simp [walkStep, he]]
      exact ih _

theorem walkFold_pages (cfg : Config) (fs : FS) :
    ∀ (events : List WalkEvent) (acc : List Page),
      (events.foldl
        (fun st e => match st.2 with
          | some _ => st
          | none => walkStep cfg fs st.1 e)
        (acc, none)).1 = acc ++ walkPages cfg fs events := by
  intro events
  induction events with
  | nil => intro acc; simp [walkPages]
  | cons e rest ih =>
    intro acc
    rw [List.foldl_cons]
    show (rest.foldl _ (walkStep cfg fs acc e)).1 = acc ++ walkPages cfg fs (e :: rest)
    have hw : walkStep cfg fs acc e = (acc ++ eventPages cfg fs e, none) := by
      cases he : e.err with
      | some m => simp [walkStep, eventPages, he]
      | none =>
        by_cases hx : extGo e.path = ".md" <;> simp [walkStep, eventPages, he, hx]
    rw [hw, ih]
    simp [walkPages]

theorem walkAll_eq (cfg : Config) (fs : FS) (events : List WalkEvent) :
    walkAll cfg fs events = (walkPages cfg fs events, none) := by
  have h1 := walkFold_pages cfg fs events []
  have h2 := walkFold_snd_none cfg fs events []
  exact Prod.ext h1 h2

/-- `readAll` never returns an error: the walk callback returns nil on
every path (walk errors only produce fatal-error pages), so the error
branch of `main` that would exit 1 is dead. -/
theorem readAllGo_ok (cfg : Config) (fs : FS) (events : List WalkEvent) :
    readAllGo cfg fs events = .ok (walkPages cfg fs events) := by
  unfold readAllGo
  rw [walkAll_eq]

/- ### Claim C1 -/

/-- C1: the process exit status of `main` is 0 on every run that reaches
the report, regardless of recorded fatal errors — `main` prints the
errors but never exits non-zero for them.  The second conjunct exhibits a
run whose final page state carries a fatal error while the exit status of
the very same run is 0, refuting "non-zero iff some fatal error". -/
theorem c1_exit_status_always_zero :
    (∀ (cfg : Config) (fs : FS) (events : List WalkEvent), (mainRun cfg fs events).2.2 = 0) ∧
    hasFatalErrors
      (mainRun cfgFix fsEmpty [{ path := "/root/sub", err := some "permission denied" }]).1
      = true := by
  constructor
  · intro cfg fs events
    unfold mainRun
    rw [readAllGo_ok]
  · decide

/- ### Field-preservation lemmas -/

theorem langFold_fields (path cd : String) :
    ∀ (ls : List String) (q : Page),
      (ls.foldl (langStep path cd) q).path = q.path ∧
      (ls.foldl (langStep path cd) q).isHugoPage = q.isHugoPage ∧
      (ls.foldl (langStep path cd) q).fatalError = q.fatalError ∧
      (ls.foldl (langStep path cd) q).links = q.links := by
  intro ls
  induction ls with
  | nil => intro q; exact ⟨rfl, rfl, rfl, rfl⟩
  | cons l rest ih =>
    intro q
    rw [List.foldl_cons]
    have hstep :
        (langStep path cd q l).path = q.path ∧
        (langStep path cd q l).isHugoPage = q.isHugoPage ∧
        (langStep path cd q l).fatalError = q.fatalError ∧
        (langStep path cd q l).links = q.links := by
      unfold langStep
      by_cases hc : goHasPref path (joinGo [cd, l]) = true <;> simp [hc]
    obtain ⟨h1, h2, h3, h4⟩ := ih (langStep path cd q l)
    exact ⟨h1.trans hstep.1, h2.trans hstep.2.1, h3.trans hstep.2.2.1, h4.trans hstep.2.2.2⟩

theorem newPage_path (cfg : Config) (path : String) : (newPage cfg path).path = path := by
  unfold newPage
  by_cases hc : goHasPref path (joinGo [cfg.root, cfg.hugoFolder, "content"]) = true
  · simp only [hc, if_true]
    cases hl : cfg.hugoLanguages with
    | nil => rfl
    | cons a as =>
      rw [apply_ite Page.path]
      dsimp only
      rw [ite_self]
      exact (langFold_fields path _ (a :: as) _).1
  · simp only [hc, Bool.false_eq_true, if_false]

theorem newPage_links (cfg : Config) (path : String) : (newPage cfg path).links = [] := by
  unfold newPage
  by_cases hc : goHasPref path (joinGo [cfg.root, cfg.hugoFolder, "content"]) = true
  · simp only [hc, if_true]
    cases hl : cfg.hugoLanguages with
    | nil => rfl
    | cons a as =>
      rw [apply_ite Page.links]
      dsimp only
      rw [ite_self]
      exact (langFold_fields path _ (a :: as) _).2.2.2
  · simp only [hc, Bool.false_eq_true, if_false]

theorem addLink_path (cfg : Config) (fs : FS) (p : Page) (l : String) (n : Nat) :
    (addLink cfg fs p l n).path = p.path := by
  obtain ⟨lk, h, _⟩ := addLink_shape cfg fs p l n
  rw [h]

theorem addLinkList_path (cfg : Config) (fs : FS) :
    ∀ (ls : List String) (p : Page) (n : Nat), (addLinkList cfg fs p ls n).path = p.path := by
  intro ls
  induction ls with
  | nil => intro p n; rfl
  | cons l rest ih =>
    intro p n
    show (addLinkList cfg fs (addLink cfg fs p l n) rest n).path = p.path
    rw [ih, addLink_path]

theorem addLines_path (cfg : Config) (fs : FS) :
    ∀ (lines : List String) (p : Page) (i : Nat), (addLines cfg fs p lines i).path = p.path := by
  intro lines
  induction lines with
  | nil => intro p i; rfl
  | cons line rest ih =>
    intro p i
    show (addLines cfg fs (addLinkList cfg fs p (readMarkdownLineLinks line) (i + 1)) rest
      (i + 1)).path = p.path
    rw [ih, addLinkList_path]

theorem readMarkdownPage_path (cfg : Config) (fs : FS) (path : String) :
    (readMarkdownPage cfg fs path).path = path := by
  unfold readMarkdownPage
  split
  · rw [show ({ newPage cfg path with fatalError := _ } : Page).path = (newPage cfg path).path
      from rfl, newPage_path]
  · rw [addLines_path]
    rw [show ({ newPage cfg path with anchors := _ } : Page).path = (newPage cfg path).path
      from rfl, newPage_path]

theorem eventPages_mem (cfg : Config) (fs : FS) (e : WalkEvent) :
    ∀ p ∈ eventPages cfg fs e, p.path = e.path ∧ (e.err ≠ none ∨ extGo e.path = ".md") := by
  intro p hp
  unfold eventPages at hp
  cases he : e.err with
  | some m =>
    rw [he] at hp
    rcases List.mem_singleton.mp hp with rfl
    exact ⟨rfl, Or.inl (by simp [he])⟩
  | none =>
    rw [he] at hp
    by_cases hx : extGo e.path = ".md"
    · rw [if_pos hx] at hp
      rcases List.mem_singleton.mp hp with rfl
      exact ⟨readMarkdownPage_path cfg fs e.path, Or.inr hx⟩
    · rw [if_neg hx] at hp
      simp at hp

theorem eventPages_count (cfg : Config) (fs : FS) (e : WalkEvent) (q : String) :
    ((eventPages cfg fs e).filter fun p => p.path = q).length =
    (if e.path = q ∧ (e.err.isSome = true ∨ extGo e.path = ".md") then 1 else 0) := by
  cases he : e.err with
  | some m =>
    by_cases hq : e.path = q
    · subst hq
      simp [eventPages, he, newPageWithFatalError, List.filter]
    · simp [eventPages, he, hq, newPageWithFatalError, List.filter]
  | none =>
    by_cases hq : e.path = q
    · subst hq
      by_cases hx : extGo e.path = ".md" <;>
        simp [eventPages, he, hx, List.filter, readMarkdownPage_path]
    · by_cases hx : extGo e.path = ".md" <;>
        simp [eventPages, he, hx, hq, List.filter, readMarkdownPage_path]

theorem walkPages_cons (cfg : Config) (fs : FS) (e : WalkEvent) (rest : List WalkEvent) :
    walkPages cfg fs (e :: rest) = eventPages cfg fs e ++ walkPages cfg fs rest := by
  simp [walkPages]

/-- C6 (amended): a Page is created only for markdown paths or for paths
on which the walk reported an error (which become fatal-error Pages
whatever their extension); and for every path, the number of Pages
carrying it equals the number of walk events for it that were either
erroneous or markdown — in particular each markdown file visited once is
inserted exactly once. -/
theorem c6_pages_iff_markdown_or_walk_error (cfg : Config) (fs : FS)
    (events : List WalkEvent) (pages : List Page)
    (hread : readAllGo cfg fs events = .ok pages) :
    (∀ p ∈ pages, extGo p.path = ".md" ∨ ∃ e ∈ events, e.err ≠ none ∧ e.path = p.path) ∧
    (∀ q : String, (pages.filter fun p => p.path = q).length =
      (events.filter fun e =>
        decide (e.path = q) && (e.err.isSome || decide (extGo e.path = ".md"))).length) := by
  have hpages : pages = walkPages cfg fs events := by
    rw [readAllGo_ok] at hread
    exact ((Except.ok.injEq _ _).mp hread).symm
  subst hpages
  clear hread
  constructor
  · induction events with
    | nil => intro p hp; simp [walkPages] at hp
    | cons e rest ih =>
      intro p hp
      rw [walkPages_cons] at hp
      rcases List.mem_append.mp hp with h | h
      · obtain ⟨hpath, hor⟩ := eventPages_mem cfg fs e p h
        rcases hor with herr | hx
        · exact Or.inr ⟨e, List.mem_cons_self e rest, herr, hpath.symm⟩
        · rw [hpath]
          exact Or.inl hx
      · rcases ih p h with h1 | ⟨e', he', h2, h3⟩
        · exact Or.inl h1
        · exact Or.inr ⟨e', List.mem_cons_of_mem e he', h2, h3⟩
  · intro q
    induction events with
    | nil => simp [walkPages]
    | cons e rest ih =>
      rw [walkPages_cons, List.filter_append, List.length_append, eventPages_count,
        List.filter_cons]
      by_cases h1 : e.path = q
      · subst h1
        by_cases h2 : e.err.isSome = true <;> by_cases h3 : extGo e.path = ".md" <;>
          simp [h2, h3, ih] <;> omega
      · simp [h1, ih]

/-- C7 (amended): a page is classified as localized content (isHugoPage)
iff the joined `<root>/<hugoFolder>/content` string is a plain string
prefix of its path — no following separator is required. -/
theorem c7_localized_iff_string_prefix (cfg : Config) (path : String) :
    (newPage cfg path).isHugoPage = goHasPref path (joinGo [cfg.root, cfg.hugoFolder, "content"]) := by
  unfold newPage
  by_cases hc : goHasPref path (joinGo [cfg.root, cfg.hugoFolder, "content"]) = true
  · simp only [hc, if_true]
    cases hl : cfg.hugoLanguages with
    | nil => dsimp only
    | cons a as =>
      rw [apply_ite Page.isHugoPage]
      dsimp only
      rw [ite_self]
      exact (langFold_fields path _ (a :: as) _).2.1
  · simp only [hc, Bool.false_eq_true, if_false]

/-- Counterexample for C7 as stated: `/root/hugo/contentfoo.md` is not
under `<root>/<contentDir>/` (prefix with separator), yet `newPage`
classifies it as localized content. -/
theorem c7_counterexample_sibling_prefix :
    (newPage cfgFix "/root/hugo/contentfoo.md").isHugoPage = true ∧
    goHasPref "/root/hugo/contentfoo.md"
      (joinGo [cfgFix.root, cfgFix.hugoFolder, "content"] ++ "/") = false := by
  decide

/-- Witness for C6: a two-event walk (one markdown file, one text file)
produces exactly the one page of the markdown file. -/
theorem c6_pages_iff_markdown_or_walk_error_witness :
    readAllGo cfgFix fsEmpty
      [{ path := "/root/a.md" }, { path := "/root/b.txt" }] =
      .ok [readMarkdownPage cfgFix fsEmpty "/root/a.md"] ∧
    (([readMarkdownPage cfgFix fsEmpty "/root/a.md"].filter
        fun p => p.path = "/root/a.md").length =
      ([({ path := "/root/a.md" } : WalkEvent), { path := "/root/b.txt" }].filter
        fun e => decide (e.path = "/root/a.md") &&
          (e.err.isSome || decide (extGo e.path = ".md"))).length) :=
  ⟨rfl,
   (c6_pages_iff_markdown_or_walk_error cfgFix fsEmpty
      [{ path := "/root/a.md" }, { path := "/root/b.txt" }]
      [readMarkdownPage cfgFix fsEmpty "/root/a.md"] rfl).2 "/root/a.md"⟩

/-- Counterexample for C6 as stated: a walk error on the non-markdown
path `/root/script.sh` does create a Page for it. -/
theorem c6_counterexample_walk_error_nonmd_page :
    readAllGo cfgFix fsEmpty [{ path := "/root/script.sh", err := some "permission denied" }] =
      .ok [{ path := "/root/script.sh",
             fatalError := "Error walking path /root/script.sh: permission denied" }] ∧
    extGo "/root/script.sh" ≠ ".md" :=
  ⟨rfl, by decide⟩

/- ### Claim C2 -/
theorem addLink_links_map (cfg : Config) (fs : FS) (p : Page) (l : String) (n : Nat) :
    (addLink cfg fs p l n).links.map Link.rawLink = p.links.map Link.rawLink ++ [l] := by
  obtain ⟨lk, h1, h2, _⟩ := addLink_shape cfg fs p l n
  rw [h1]
  show (p.links ++ [lk]).map Link.rawLink = _
  rw [List.map_append]
  simp [h2]

theorem addLinkList_map (cfg : Config) (fs : FS) :
    ∀ (ls : List String) (p : Page) (n : Nat),
      (addLinkList cfg fs p ls n).links.map Link.rawLink = p.links.map Link.rawLink ++ ls := by
  intro ls
  induction ls with
  | nil => intro p n; simp [addLinkList]
  | cons l rest ih =>
    intro p n
    show (addLinkList cfg fs (addLink cfg fs p l n) rest n).links.map Link.rawLink = _
    rw [ih, addLink_links_map]
    simp

theorem addLines_map (cfg : Config) (fs : FS) :
    ∀ (lines : List String) (p : Page) (i : Nat),
      (addLines cfg fs p lines i).links.map Link.rawLink =
        p.links.map Link.rawLink ++ (lines.map readMarkdownLineLinks).flatten := by
  intro lines
  induction lines with
  | nil => intro p i; simp [addLines]
  | cons line rest ih =>
    intro p i
    show (addLines cfg fs (addLinkList cfg fs p (readMarkdownLineLinks line) (i + 1)) rest
      (i + 1)).links.map Link.rawLink = _
    rw [ih, addLinkList_map]
    simp

/-- C2 (amended): duplicate raw link strings are not coalesced — the
extraction pass appends one Link per extracted occurrence, in occurrence
order, each carrying that occurrence's raw string verbatim. -/
theorem c2_one_link_per_occurrence (cfg : Config) (fs : FS) (path content : String)
    (hread : fs.read path = .ok content) :
    (readMarkdownPage cfg fs path).links.map Link.rawLink = extractLinks content := by
  unfold readMarkdownPage
  rw [hread]
  show (addLines cfg fs _ _ 0).links.map Link.rawLink = _
  rw [addLines_map]
  have hl : ({ newPage cfg path with anchors := readMarkdownAnchors content } : Page).links
      = (newPage cfg path).links := rfl
  rw [show ({ newPage cfg path with anchors := readMarkdownAnchors content } : Page).links.map
      Link.rawLink = [] from by rw [hl, newPage_links]; rfl]
  rw [List.nil_append, extractLinks, List.map_map]
  rfl

/-- Witness for C2 (amended) on a page whose text holds two inline links. -/
theorem c2_one_link_per_occurrence_witness :
    fsDupLinks.read "/root/p.md" = .ok "a [x](https://e.com) b [y](https://e.com)" ∧
    (readMarkdownPage cfgFix fsDupLinks "/root/p.md").links.map Link.rawLink =
      extractLinks "a [x](https://e.com) b [y](https://e.com)" :=
  ⟨rfl, c2_one_link_per_occurrence cfgFix fsDupLinks "/root/p.md" _ rfl⟩

/-- Counterexample for C2 as stated: the same raw target appearing twice
on one page produces two Link entries with equal rawLink. -/
theorem c2_counterexample_duplicate_raw_links :
    (readMarkdownPage cfgFix fsDupLinks "/root/p.md").links.map Link.rawLink =
      ["https://e.com", "https://e.com"] ∧
    ¬ ((readMarkdownPage cfgFix fsDupLinks "/root/p.md").links.map Link.rawLink).Nodup := by
  constructor
  · rfl
  · intro h
    rw [show (readMarkdownPage cfgFix fsDupLinks "/root/p.md").links.map Link.rawLink =
      ["https://e.com", "https://e.com"] from rfl] at h
    simp at h

/- ### Claim C3 -/
theorem extGo_of_md_suffix (s : String) (h : endsWithGo s ".md" = true) : extGo s = ".md" := by
  unfold endsWithGo at h
  obtain ⟨t, ht⟩ := (isPrefL_iff _ _).mp h
  rw [show (".md" : String).data.reverse = ['d', 'm', '.'] from rfl] at ht
  unfold extGo
  rw [ht]
  show (⟨extScan [] ('d' :: 'm' :: '.' :: t)⟩ : String) = ".md"
  simp [extScan]

theorem parseLink_of_not_shortcode (raw : String) (h : isRefShortcode raw = false) :
    parseLink raw = parseLinkPlain raw := by
  unfold parseLink
  unfold isRefShortcode at h
  cases hm : refMatch raw with
  | none => rfl
  | some pr =>
    obtain ⟨tag, v⟩ := pr
    rw [hm] at h
    simp only [Bool.or_eq_false_iff, decide_eq_false_iff_not] at h
    dsimp only
    rw [if_neg (by rintro (h1 | h2); exacts [h.1 h1, h.2 h2])]

/-- C3 (amended): a scheme-less link on a localized page whose path part
ends in `.md` is rejected with the fatal "must not have extension" error
suggesting the trimmed path with the fragment re-attached — provided its
base name is not `_index.md` (which hits the earlier `_index.md`
rejection instead) and it does not parse as a ref/refLink shortcode. -/
theorem c3_md_extension_rejected (cfg : Config) (fs : FS) (p : Page) (raw : String) (n : Nat)
    (u : GoURL) (hu : parseURL raw = .ok u) (hs : u.scheme = "") (hp : p.isHugoPage = true)
    (hmd : endsWithGo (splitPathAndFragment raw).1 ".md" = true)
    (hidx : baseGo (splitPathAndFragment raw).1 ≠ "_index.md")
    (href : isRefShortcode raw = false) :
    addLink cfg fs p raw n = { p with links := p.links ++
      [{ rawLink := raw, lineNumber := n,
         fatalError := "links must not have .md extension, use \"" ++
           trimSuffixGo (splitPathAndFragment raw).1 ".md" ++
           (splitPathAndFragment raw).2 ++ "\" instead",
         URL := none }] } := by
  have hpl : parseLink raw = .error ("links must not have .md extension, use \"" ++
      trimSuffixGo (splitPathAndFragment raw).1 ".md" ++
      (splitPathAndFragment raw).2 ++ "\" instead") := by
    rw [parseLink_of_not_shortcode raw href]
    unfold parseLinkPlain
    rw [if_neg hidx, if_pos (extGo_of_md_suffix _ hmd)]
  simp [addLink, hu, hs, hp, hpl]

/-- Witness for C3 (amended): `page.md#x` on a localized page is rejected
with the extension error suggesting `page#x`. -/
theorem c3_md_extension_rejected_witness :
    parseURL "page.md#x" = .ok ⟨"", "", "page.md", "", "x"⟩ ∧
    (⟨"", "", "page.md", "", "x"⟩ : GoURL).scheme = "" ∧
    (newPage cfgFix "/root/hugo/content/en/t.md").isHugoPage = true ∧
    endsWithGo (splitPathAndFragment "page.md#x").1 ".md" = true ∧
    baseGo (splitPathAndFragment "page.md#x").1 ≠ "_index.md" ∧
    isRefShortcode "page.md#x" = false ∧
    addLink cfgFix fsEmpty (newPage cfgFix "/root/hugo/content/en/t.md") "page.md#x" 7 =
      { newPage cfgFix "/root/hugo/content/en/t.md" with links :=
        (newPage cfgFix "/root/hugo/content/en/t.md").links ++
        [{ rawLink := "page.md#x", lineNumber := 7,
           fatalError := "links must not have .md extension, use \"" ++
             trimSuffixGo (splitPathAndFragment "page.md#x").1 ".md" ++
             (splitPathAndFragment "page.md#x").2 ++ "\" instead",
           URL := none }] } :=
  ⟨rfl, rfl, by decide, by decide, by decide, by decide,
   c3_md_extension_rejected cfgFix fsEmpty (newPage cfgFix "/root/hugo/content/en/t.md")
     "page.md#x" 7 ⟨"", "", "page.md", "", "x"⟩ rfl rfl (by decide) (by decide) (by decide)
     (by decide)⟩

/-- Counterexample for C3 as stated: `_index.md` has a path part ending
in `.md` on a localized page, yet resolution fails with the `_index.md`
error, not the "must not have extension" error. -/
theorem c3_counterexample_index_md :
    endsWithGo (splitPathAndFragment "_index.md").1 ".md" = true ∧
    (newPage cfgFix "/root/hugo/content/en/t.md").isHugoPage = true ∧
    (addLink cfgFix fsEmpty (newPage cfgFix "/root/hugo/content/en/t.md") "_index.md" 2).links =
      [{ rawLink := "_index.md", lineNumber := 2,
         fatalError := "links must not end with _index.md, use \"./\" instead", URL := none }] ∧
    "links must not end with _index.md, use \"./\" instead" ≠
      "links must not have .md extension, use \"_index\" instead" :=
  ⟨by decide, by decide, rfl, by decide⟩

/- ### Claim C4: path algebra for resolution -/

theorem interCh_append (c : Char) :
    ∀ (xs ys : List (List Char)), xs ≠ [] → ys ≠ [] →
      interCh c (xs ++ ys) = interCh c xs ++ c :: interCh c ys := by
  intro xs
  induction xs with
  | nil => intro ys h _; exact absurd rfl h
  | cons x xs ih =>
    intro ys _ hys
    cases xs with
    | nil =>
      cases ys with
      | nil => exact absurd rfl hys
      | cons y ys => simp [interCh]
    | cons x' xs' =>
      show x ++ c :: interCh c (x' :: xs' ++ ys) = interCh c (x :: x' :: xs') ++ c :: interCh c ys
      rw [ih ys (by simp) hys]
      show x ++ c :: (interCh c (x' :: xs') ++ c :: interCh c ys) =
        (x ++ c :: interCh c (x' :: xs')) ++ c :: interCh c ys
      simp

theorem splitCh_ne_nil (c : Char) : ∀ (xs : List Char), splitCh c xs ≠ [] := by
  intro xs
  cases xs with
  | nil => simp [splitCh]
  | cons a rest =>
    unfold splitCh
    cases h : splitCh c rest with
    | nil => simp
    | cons b t => by_cases hac : a = c <;> simp [hac]

theorem splitCh_not_mem (c : Char) : ∀ (xs : List Char), c ∉ xs → splitCh c xs = [xs] := by
  intro xs
  induction xs with
  | nil => intro _; rfl
  | cons a rest ih =>
    intro h
    have ha : a ≠ c := fun hc => h (hc ▸ List.mem_cons_self a rest)
    have hrest : c ∉ rest := fun hc => h (List.mem_cons_of_mem a hc)
    show (match splitCh c rest with
      | [] => [[]]
      | h :: t => if a = c then [] :: h :: t else (a :: h) :: t) = [a :: rest]
    rw [ih hrest]
    simp [ha]

theorem splitCh_append (c : Char) :
    ∀ (xs ys : List Char), c ∉ xs → splitCh c (xs ++ c :: ys) = xs :: splitCh c ys := by
  intro xs
  induction xs with
  | nil =>
    intro ys _
    show (match splitCh c ys with
      | [] => [[]]
      | h :: t => if c = c then [] :: h :: t else (c :: h) :: t) = [] :: splitCh c ys
    cases h : splitCh c ys with
    | nil => exact absurd h (splitCh_ne_nil c ys)
    | cons b t => simp
  | cons a rest ih =>
    intro ys h
    have ha : a ≠ c := fun hc => h (hc ▸ List.mem_cons_self a rest)
    have hrest : c ∉ rest := fun hc => h (List.mem_cons_of_mem a hc)
    show (match splitCh c (rest ++ c :: ys) with
      | [] => [[]]
      | h :: t => if a = c then [] :: h :: t else (a :: h) :: t) = (a :: rest) :: splitCh c ys
    rw [ih ys hrest]
    simp [ha]

theorem splitCh_interCh (c : Char) :
    ∀ (ps : List (List Char)), ps ≠ [] → (∀ p ∈ ps, c ∉ p) →
      splitCh c (interCh c ps) = ps := by
  intro ps
  induction ps with
  | nil => intro h _; exact absurd rfl h
  | cons p rest ih =>
    intro _ hmem
    cases rest with
    | nil =>
      show splitCh c p = [p]
      exact splitCh_not_mem c p (hmem p (List.mem_cons_self p []))
    | cons p' rest' =>
      rw [show interCh c (p :: p' :: rest') = p ++ c :: interCh c (p' :: rest') from rfl]
      rw [splitCh_append c p _ (hmem p (List.mem_cons_self p _))]
      rw [ih (by simp) (fun q hq => hmem q (List.mem_cons_of_mem p hq))]

theorem cleanParts_no_dotdot (rooted : Bool) :
    ∀ (ps : List (List Char)) (acc : List (List Char)),
      (∀ p ∈ ps, p ≠ ['.', '.']) →
      cleanParts rooted acc ps =
        acc ++ ps.filter (fun p => !(decide (p = []) || decide (p = ['.']))) := by
  intro ps
  induction ps with
  | nil => intro acc _; simp [cleanParts]
  | cons p rest ih =>
    intro acc hdd
    have hp : p ≠ ['.', '.'] := hdd p (List.mem_cons_self p rest)
    have hrest : ∀ q ∈ rest, q ≠ ['.', '.'] := fun q hq => hdd q (List.mem_cons_of_mem p hq)
    unfold cleanParts
    by_cases h1 : p = [] ∨ p = ['.']
    · rw [if_pos h1, ih acc hrest, List.filter_cons]
      have hcond : (!(decide (p = []) || decide (p = ['.']))) = false := by
        rcases h1 with h | h <;> simp [h]
      rw [hcond]
      simp
    · rw [if_neg h1, if_neg hp, ih (acc ++ [p]) hrest, List.filter_cons]
      have hcond : (!(decide (p = []) || decide (p = ['.']))) = true := by
        push_neg at h1
        simp [h1.1, h1.2]
      rw [hcond]
      simp

theorem cleanGo_rooted (parts : List (List Char)) (hne : parts ≠ [])
    (hsf : ∀ p ∈ parts, '/' ∉ p) (hdd : ∀ p ∈ parts, p ≠ ['.', '.'])
    (hres : parts.filter (fun p => !(decide (p = []) || decide (p = ['.']))) ≠ []) :
    cleanGo ⟨'/' :: interCh '/' parts⟩ =
      ⟨'/' :: interCh '/' (parts.filter (fun p => !(decide (p = []) || decide (p = ['.']))))⟩ := by
  have hdata : ('/' :: interCh '/' parts) = interCh '/' ([] :: parts) := by
    cases parts with
    | nil => exact absurd rfl hne
    | cons p rest => rfl
  unfold cleanGo
  rw [if_neg (by simp)]
  have hrooted : isAbsGo ⟨'/' :: interCh '/' parts⟩ = true := rfl
  rw [hrooted]
  have hsplit : splitCh '/' ('/' :: interCh '/' parts) = [] :: parts := by
    rw [hdata]
    refine splitCh_interCh '/' ([] :: parts) (by simp) ?_
    intro q hq
    rcases List.mem_cons.mp hq with rfl | hq2
    · simp
    · exact hsf q hq2
  rw [show (⟨'/' :: interCh '/' parts⟩ : String).data = '/' :: interCh '/' parts from rfl]
  rw [hsplit]
  dsimp only
  rw [cleanParts_no_dotdot true ([] :: parts) []
    (by intro q hq
        rcases List.mem_cons.mp hq with rfl | hq2
        · simp
        · exact hdd q hq2)]
  rw [List.nil_append]
  have hfe : List.filter (fun p => !(decide (p = []) || decide (p = ['.']))) ([] :: parts) =
      List.filter (fun p => !(decide (p = []) || decide (p = ['.']))) parts := by
    rw [List.filter_cons]
    simp
  rw [hfe, if_neg hres]
  rfl

theorem interCh_cons (c : Char) (x : List Char) (rest : List (List Char)) (h : rest ≠ []) :
    interCh c (x :: rest) = x ++ c :: interCh c rest := by
  cases rest with
  | nil => exact absurd rfl h
  | cons a t => rfl

theorem interCh_last_append (c : Char) :
    ∀ (l : List (List Char)) (a b : List Char),
      interCh c (l ++ [a]) ++ b = interCh c (l ++ [a ++ b]) := by
  intro l
  induction l with
  | nil => intro a b; rfl
  | cons x xs ih =>
    intro a b
    rw [List.cons_append, List.cons_append,
      interCh_cons c x (xs ++ [a]) (by simp),
      interCh_cons c x (xs ++ [a ++ b]) (by simp)]
    rw [List.append_assoc, List.cons_append, ih a b]

theorem plainChar_facts (c : Char) (h : plainChar c = true) :
    c ≠ '/' ∧ c ≠ '#' ∧ c ≠ '%' ∧ c ≠ '?' ∧ ctlByte c = false := by
  unfold plainChar at h
  simp only [Bool.and_eq_true, decide_eq_true_eq, Bool.not_eq_true'] at h
  exact ⟨h.1.1.1.1, h.1.1.1.2, h.1.1.2, h.1.2, h.2⟩

theorem goodPart_facts (s : String) (h : goodPart s = true) :
    s.data ≠ [] ∧ s.data ≠ ['.'] ∧ s.data ≠ ['.', '.'] ∧
      ∀ c ∈ s.data, plainChar c = true := by
  unfold goodPart at h
  simp only [Bool.and_eq_true, decide_eq_true_eq] at h
  obtain ⟨⟨⟨h1, h2⟩, h3⟩, h4⟩ := h
  refine ⟨fun hd => h1 (String.ext hd), fun hd => h2 (String.ext hd),
    fun hd => h3 (String.ext hd), ?_⟩
  intro c hc
  exact List.all_eq_true.mp h4 c hc

theorem goodPart_slashFree (s : String) (h : goodPart s = true) : '/' ∉ s.data := by
  intro hm
  exact (plainChar_facts '/' ((goodPart_facts s h).2.2.2 '/' hm)).1 rfl

theorem goodParts_mem (ps : List String) (h : goodParts ps = true) :
    ∀ s ∈ ps, goodPart s = true := by
  intro s hs
  exact List.all_eq_true.mp h s hs

theorem goodParts_map_slashFree (ps : List String) (h : goodParts ps = true) :
    ∀ p ∈ ps.map String.data, '/' ∉ p := by
  intro p hp
  obtain ⟨s, hs, rfl⟩ := List.mem_map.mp hp
  exact goodPart_slashFree s (goodParts_mem ps h s hs)

theorem goodParts_map_no_dotdot (ps : List String) (h : goodParts ps = true) :
    ∀ p ∈ ps.map String.data, p ≠ ['.', '.'] := by
  intro p hp
  obtain ⟨s, hs, rfl⟩ := List.mem_map.mp hp
  exact (goodPart_facts s (goodParts_mem ps h s hs)).2.2.1

theorem goodParts_filter (ps : List String) (h : goodParts ps = true) :
    (ps.map String.data).filter (fun p => !(decide (p = []) || decide (p = ['.']))) =
      ps.map String.data := by
  rw [List.filter_eq_self]
  intro p hp
  obtain ⟨s, hs, rfl⟩ := List.mem_map.mp hp
  obtain ⟨h1, h2, _, _⟩ := goodPart_facts s (goodParts_mem ps h s hs)
  simp [h1, h2]

theorem mkAbs_data (ps : List String) :
    (mkAbs ps).data = '/' :: interCh '/' (ps.map String.data) := rfl

theorem mkAbs_ne_empty (ps : List String) : mkAbs ps ≠ "" := by
  rw [strNe_empty_iff]
  simp [mkAbs]

theorem mkAbs_append_last (ps : List String) (x y : String) :
    mkAbs (ps ++ [x]) ++ y = mkAbs (ps ++ [x ++ y]) := by
  apply String.ext
  rw [strAppend_data, mkAbs_data, mkAbs_data, List.map_append, List.map_append]
  rw [show ([x] : List String).map String.data = [x.data] from rfl,
    show ([x ++ y] : List String).map String.data = [x.data ++ y.data] from rfl]
  rw [List.cons_append]
  rw [interCh_last_append]

theorem joinGo_two_abs (ps : List String) (x : String)
    (hps : goodParts ps = true) (hne : ps ≠ []) (hx : goodPart x = true) :
    joinGo [mkAbs ps, x] = mkAbs (ps ++ [x]) := by
  unfold joinGo
  rw [show ([mkAbs ps, x].dropWhile (fun e => decide (e = ""))) = [mkAbs ps, x] from by
    rw [List.dropWhile_cons, if_neg (by simp [mkAbs_ne_empty ps])]]
  show cleanGo ⟨interCh '/' [(mkAbs ps).data, x.data]⟩ = mkAbs (ps ++ [x])
  have hmap : ps.map String.data ≠ [] := by
    cases ps with
    | nil => exact absurd rfl hne
    | cons a t => simp
  have hdata : interCh '/' [(mkAbs ps).data, x.data] =
      '/' :: interCh '/' (ps.map String.data ++ [x.data]) := by
    show (mkAbs ps).data ++ '/' :: x.data = _
    rw [mkAbs_data, interCh_append '/' (ps.map String.data) [x.data] hmap (by simp)]
    rfl
  rw [hdata]
  have hxf := goodPart_facts x hx
  rw [cleanGo_rooted (ps.map String.data ++ [x.data]) (by simp)
    (by intro p hp
        rcases List.mem_append.mp hp with h | h
        · exact goodParts_map_slashFree ps hps p h
        · rw [List.mem_singleton.mp h]; exact goodPart_slashFree x hx)
    (by intro p hp
        rcases List.mem_append.mp hp with h | h
        · exact goodParts_map_no_dotdot ps hps p h
        · rw [List.mem_singleton.mp h]; exact hxf.2.2.1)
    (by rw [List.filter_append, goodParts_filter ps hps]
        simp [hxf.1, hxf.2.1])]
  rw [List.filter_append, goodParts_filter ps hps]
  rw [show (([x.data] : List (List Char)).filter
      (fun p => !(decide (p = []) || decide (p = ['.'])))) = [x.data] from by
    simp [hxf.1, hxf.2.1]]
  rw [show mkAbs (ps ++ [x]) = ⟨'/' :: interCh '/' ((ps ++ [x]).map String.data)⟩ from rfl,
    List.map_append]
  rfl

theorem joinGo_root (x : String) (hx : goodPart x = true) :
    joinGo ["/", x] = mkAbs [x] := by
  unfold joinGo
  rw [show (["/", x].dropWhile (fun e => decide (e = ""))) = ["/", x] from by
    rw [List.dropWhile_cons, if_neg (by simp)]]
  show cleanGo ⟨interCh '/' [['/'], x.data]⟩ = mkAbs [x]
  have hdata : interCh '/' [['/'], x.data] = '/' :: interCh '/' ([[], x.data]) := rfl
  rw [hdata]
  have hxf := goodPart_facts x hx
  rw [cleanGo_rooted [[], x.data] (by simp)
    (by intro p hp
        rcases List.mem_cons.mp hp with rfl | hp2
        · simp
        · rw [List.mem_singleton.mp hp2]; exact goodPart_slashFree x hx)
    (by intro p hp
        rcases List.mem_cons.mp hp with rfl | hp2
        · simp
        · rw [List.mem_singleton.mp hp2]; exact hxf.2.2.1)
    (by simp [hxf.1, hxf.2.1])]
  rw [show (([[], x.data] : List (List Char)).filter
      (fun p => !(decide (p = []) || decide (p = ['.'])))) = [x.data] from by
    simp [hxf.1, hxf.2.1]]
  rfl

theorem joinGo_three_abs (ps : List String) (x : String) (qs : List String)
    (hps : goodParts ps = true) (hpne : ps ≠ []) (hx : goodPart x = true)
    (hqs : goodParts qs = true) (hqne : qs ≠ []) :
    joinGo [mkAbs ps, x, mkAbs qs] = mkAbs (ps ++ [x] ++ qs) := by
  unfold joinGo
  rw [show ([mkAbs ps, x, mkAbs qs].dropWhile (fun e => decide (e = ""))) =
      [mkAbs ps, x, mkAbs qs] from by
    rw [List.dropWhile_cons, if_neg (by simp [mkAbs_ne_empty ps])]]
  show cleanGo ⟨interCh '/' [(mkAbs ps).data, x.data, (mkAbs qs).data]⟩ = mkAbs (ps ++ [x] ++ qs)
  have hpmap : ps.map String.data ≠ [] := by
    cases ps with
    | nil => exact absurd rfl hpne
    | cons a t => simp
  have hqmap : qs.map String.data ≠ [] := by
    cases qs with
    | nil => exact absurd rfl hqne
    | cons a t => simp
  have hxf := goodPart_facts x hx
  have hdata : interCh '/' [(mkAbs ps).data, x.data, (mkAbs qs).data] =
      '/' :: interCh '/' (ps.map String.data ++ [x.data] ++ [[]] ++ qs.map String.data) := by
    show (mkAbs ps).data ++ '/' :: (x.data ++ '/' :: (mkAbs qs).data) = _
    rw [mkAbs_data, mkAbs_data]
    rw [show ps.map String.data ++ [x.data] ++ [[]] ++ qs.map String.data =
      ps.map String.data ++ ([x.data] ++ ([[]] ++ qs.map String.data)) from by simp]
    rw [interCh_append '/' (ps.map String.data) ([x.data] ++ ([[]] ++ qs.map String.data))
      hpmap (by simp)]
    rw [interCh_append '/' [x.data] ([[]] ++ qs.map String.data) (by simp) (by simp)]
    rw [interCh_append '/' [[]] (qs.map String.data) (by simp) hqmap]
    rfl
  rw [hdata]
  rw [cleanGo_rooted (ps.map String.data ++ [x.data] ++ [[]] ++ qs.map String.data)
    (by simp)
    (by intro p hp
        rcases List.mem_append.mp hp with hp1 | hq
        · rcases List.mem_append.mp hp1 with hp2 | he
          · rcases List.mem_append.mp hp2 with h | h
            · exact goodParts_map_slashFree ps hps p h
            · rw [List.mem_singleton.mp h]; exact goodPart_slashFree x hx
          · rw [List.mem_singleton.mp he]; simp
        · exact goodParts_map_slashFree qs hqs p hq)
    (by intro p hp
        rcases List.mem_append.mp hp with hp1 | hq
        · rcases List.mem_append.mp hp1 with hp2 | he
          · rcases List.mem_append.mp hp2 with h | h
            · exact goodParts_map_no_dotdot ps hps p h
            · rw [List.mem_singleton.mp h]; exact hxf.2.2.1
          · rw [List.mem_singleton.mp he]; simp
        · exact goodParts_map_no_dotdot qs hqs p hq)
    (by rw [List.filter_append, List.filter_append, List.filter_append,
          goodParts_filter ps hps, goodParts_filter qs hqs]
        simp [hxf.1, hxf.2.1])]
  rw [List.filter_append, List.filter_append, List.filter_append,
    goodParts_filter ps hps, goodParts_filter qs hqs]
  rw [show (([x.data] : List (List Char)).filter
      (fun p => !(decide (p = []) || decide (p = ['.'])))) = [x.data] from by
    simp [hxf.1, hxf.2.1]]
  rw [show (([[]] : List (List Char)).filter
      (fun p => !(decide (p = []) || decide (p = ['.'])))) = [] from by simp]
  rw [show mkAbs (ps ++ [x] ++ qs) =
    ⟨'/' :: interCh '/' ((ps ++ [x] ++ qs).map String.data)⟩ from rfl]
  rw [List.map_append, List.map_append]
  rw [List.append_nil]
  rfl

theorem dropWhile_append_all {p : Char → Bool} :
    ∀ (xs ys : List Char), (∀ a ∈ xs, p a = true) →
      List.dropWhile p (xs ++ ys) = List.dropWhile p ys := by
  intro xs
  induction xs with
  | nil => intro ys _; rfl
  | cons a rest ih =>
    intro ys h
    rw [List.cons_append, List.dropWhile_cons, if_pos (h a (List.mem_cons_self a rest))]
    exact ih ys (fun b hb => h b (List.mem_cons_of_mem a hb))

theorem takeWhile_append_all {p : Char → Bool} :
    ∀ (xs ys : List Char), (∀ a ∈ xs, p a = true) →
      List.takeWhile p (xs ++ ys) = xs ++ List.takeWhile p ys := by
  intro xs
  induction xs with
  | nil => intro ys _; rfl
  | cons a rest ih =>
    intro ys h
    rw [List.cons_append, List.takeWhile_cons, if_pos (h a (List.mem_cons_self a rest))]
    rw [ih ys (fun b hb => h b (List.mem_cons_of_mem a hb))]
    rfl

theorem dropWhile_cons_false {p : Char → Bool} (a : Char) (l : List Char) (h : p a = false) :
    List.dropWhile p (a :: l) = a :: l := by
  rw [List.dropWhile_cons, h]
  simp

theorem dirGo_mkAbs (dirs : List String) (x : String)
    (hx1 : x.data ≠ []) (hx2 : '/' ∉ x.data) (hdirs : goodParts dirs = true) :
    dirGo (mkAbs (dirs ++ [x])) = (if dirs = [] then "/" else mkAbs dirs) := by
  have hxall : ∀ a ∈ x.data.reverse, (fun c => decide (c ≠ '/')) a = true := by
    intro a ha
    simp only [decide_eq_true_eq]
    intro hc
    exact hx2 (hc ▸ List.mem_reverse.mp ha)
  cases dirs with
  | nil =>
    rw [if_pos rfl]
    unfold dirGo
    rw [show (mkAbs ([] ++ [x])).data = '/' :: x.data from rfl]
    rw [List.reverse_cons]
    rw [dropWhile_append_all x.data.reverse ['/'] hxall]
    rw [dropWhile_cons_false '/' [] (by simp)]
    show cleanGo ⟨['/']⟩ = "/"
    decide
  | cons d ds =>
    rw [if_neg (by simp)]
    have hmap : (d :: ds).map String.data ≠ [] := by simp
    have hdata : (mkAbs ((d :: ds) ++ [x])).data =
        ('/' :: interCh '/' ((d :: ds).map String.data)) ++ '/' :: x.data := by
      rw [mkAbs_data, List.map_append]
      rw [show ([x] : List String).map String.data = [x.data] from rfl]
      rw [interCh_append '/' ((d :: ds).map String.data) [x.data] hmap (by simp)]
      rfl
    unfold dirGo
    rw [hdata]
    rw [List.reverse_append, List.reverse_cons, List.append_assoc]
    rw [dropWhile_append_all x.data.reverse _ hxall]
    rw [show (['/'] ++ ('/' :: interCh '/' ((d :: ds).map String.data)).reverse) =
      '/' :: ('/' :: interCh '/' ((d :: ds).map String.data)).reverse from rfl]
    rw [dropWhile_cons_false '/' _ (by simp)]
    rw [List.reverse_cons, List.reverse_reverse]
    have hform : ('/' :: interCh '/' ((d :: ds).map String.data)) ++ ['/'] =
        '/' :: interCh '/' ((d :: ds).map String.data ++ [[]]) := by
      rw [interCh_append '/' ((d :: ds).map String.data) [[]] hmap (by simp)]
      rfl
    rw [hform]
    rw [cleanGo_rooted ((d :: ds).map String.data ++ [[]]) (by simp)
      (by intro p hp
          rcases List.mem_append.mp hp with h | h
          · exact goodParts_map_slashFree _ hdirs p h
          · rw [List.mem_singleton.mp h]; simp)
      (by intro p hp
          rcases List.mem_append.mp hp with h | h
          · exact goodParts_map_no_dotdot _ hdirs p h
          · rw [List.mem_singleton.mp h]; simp)
      (by rw [List.filter_append, goodParts_filter _ hdirs]
          simp)]
    rw [List.filter_append, goodParts_filter _ hdirs]
    rw [show (([[]] : List (List Char)).filter
        (fun p => !(decide (p = []) || decide (p = ['.'])))) = [] from by simp]
    rw [List.append_nil]
    rfl

theorem takeWhile_cons_false {p : Char → Bool} (a : Char) (l : List Char) (h : p a = false) :
    List.takeWhile p (a :: l) = [] := by
  rw [List.takeWhile_cons, h]
  simp

theorem baseGo_mkAbs (dirs : List String) (x : String)
    (hx1 : x.data ≠ []) (hx2 : '/' ∉ x.data) (hdirs : goodParts dirs = true) :
    baseGo (mkAbs (dirs ++ [x])) = x := by
  have hxall : ∀ a ∈ x.data.reverse, (fun c => decide (c ≠ '/')) a = true := by
    intro a ha
    simp only [decide_eq_true_eq]
    intro hc
    exact hx2 (hc ▸ List.mem_reverse.mp ha)
  have hrevne : x.data.reverse ≠ [] := by
    intro hc
    exact hx1 (by simpa using congrArg List.reverse hc)
  obtain ⟨b, bs, hb⟩ : ∃ b bs, x.data.reverse = b :: bs := by
    cases hxr : x.data.reverse with
    | nil => exact absurd hxr hrevne
    | cons b bs => exact ⟨b, bs, rfl⟩
  have hbns : (fun c => decide (c = '/')) b = false := by
    have := hxall b (hb ▸ List.mem_cons_self b bs)
    simp only [decide_eq_true_eq] at this
    simp [this]
  -- the path splits as B ++ x.data with B ending in the separator
  obtain ⟨B, hB⟩ : ∃ B, (mkAbs (dirs ++ [x])).data = B ++ '/' :: x.data := by
    cases dirs with
    | nil => exact ⟨[], rfl⟩
    | cons d ds =>
      refine ⟨'/' :: interCh '/' ((d :: ds).map String.data), ?_⟩
      rw [mkAbs_data, List.map_append]
      rw [show ([x] : List String).map String.data = [x.data] from rfl]
      rw [interCh_append '/' ((d :: ds).map String.data) [x.data] (by simp) (by simp)]
      rfl
  unfold baseGo
  rw [hB]
  rw [if_neg (by simp)]
  have hrev : (B ++ '/' :: x.data).reverse = x.data.reverse ++ ('/' :: B.reverse) := by
    rw [List.reverse_append, List.reverse_cons, List.append_assoc]
    rfl
  have hstrip : ((B ++ '/' :: x.data).reverse.dropWhile (fun c => decide (c = '/'))).reverse =
      B ++ '/' :: x.data := by
    rw [hrev, hb, List.cons_append]
    rw [dropWhile_cons_false b _ hbns]
    rw [← List.cons_append, ← hb, ← hrev, List.reverse_reverse]
  rw [hstrip]
  rw [if_neg (by simp)]
  rw [List.reverse_append, List.reverse_cons, List.append_assoc]
  rw [takeWhile_append_all x.data.reverse _ hxall]
  rw [show (['/'] ++ B.reverse) = '/' :: B.reverse from rfl]
  rw [takeWhile_cons_false '/' _ (by simp)]
  rw [List.append_nil, List.reverse_reverse]

/- ### url.Parse on resolved file paths -/

theorem unescapeGo_no_pct : ∀ (l : List Char), '%' ∉ l → unescapeGo l = .ok l := by
  intro l
  induction l with
  | nil => intro _; rfl
  | cons c rest ih =>
    intro h
    have hc : c ≠ '%' := fun e => h (e ▸ List.mem_cons_self c rest)
    have hr : '%' ∉ rest := fun e => h (List.mem_cons_of_mem c e)
    unfold unescapeGo
    rw [if_neg hc, ih hr]

theorem parseURL_hash (frag : String) (h : '%' ∉ frag.data) :
    parseURL ("#" ++ frag) = .ok { fragment := frag } := by
  unfold parseURL
  rw [show ("#" ++ frag).data = '#' :: frag.data from rfl]
  rw [takeWhile_cons_false '#' frag.data (by simp)]
  rw [dropWhile_cons_false '#' frag.data (by simp)]
  rw [show List.drop 1 ('#' :: frag.data) = frag.data from rfl]
  dsimp only
  rw [show parseNoFrag ⟨[]⟩ = .ok {} from rfl]
  rw [show (('#' :: frag.data).any fun c => decide (c = '#')) = true from by simp]
  rw [unescapeGo_no_pct frag.data h]
  rfl

theorem mem_interCh (c sep : Char) : ∀ (ps : List (List Char)), c ∈ interCh sep ps →
    c = sep ∨ ∃ p ∈ ps, c ∈ p := by
  intro ps
  induction ps with
  | nil => intro h; simp [interCh] at h
  | cons p rest ih =>
    cases rest with
    | nil => intro h; exact Or.inr ⟨p, by simp, h⟩
    | cons q rest' =>
      intro h
      rw [interCh_cons sep p (q :: rest') (by simp)] at h
      rcases List.mem_append.mp h with h1 | h2
      · exact Or.inr ⟨p, by simp, h1⟩
      · rcases List.mem_cons.mp h2 with rfl | h3
        · exact Or.inl rfl
        · rcases ih h3 with h4 | ⟨r, hr, hcr⟩
          · exact Or.inl h4
          · exact Or.inr ⟨r, List.mem_cons_of_mem p hr, hcr⟩

theorem parseURL_abs_file (p frag : String)
    (hchars : ∀ c ∈ p.data, c ≠ '#' ∧ c ≠ '%' ∧ c ≠ '?' ∧ ctlByte c = false)
    (habs : ∃ t, p.data = '/' :: t)
    (hnoslash2 : isPrefL ['/', '/'] p.data = false)
    (hfrag : '%' ∉ frag.data) :
    parseURL (p ++ "#" ++ frag) = .ok { path := p, fragment := frag } := by
  obtain ⟨t, ht⟩ := habs
  have hdata : (p ++ "#" ++ frag).data = p.data ++ '#' :: frag.data := by
    rw [strAppend_data, strAppend_data]
    simp
  have hpn : parseNoFrag ⟨p.data⟩ = .ok { scheme := "", host := "", path := p, rawQuery := "" } := by
    unfold parseNoFrag
    rw [if_neg (by
      rw [show (⟨p.data⟩ : String).data = p.data from rfl]
      rw [List.any_eq_false.mpr (fun a ha => by simp [(hchars a ha).2.2.2])]
      simp)]
    rw [show getSchemeGo ⟨p.data⟩ [] (⟨p.data⟩ : String).data = .ok ("", p.data) from by
      rw [show (⟨p.data⟩ : String).data = p.data from rfl, ht]
      unfold getSchemeGo
      simp [isAlphaGo, isDigitGo]]
    dsimp only
    rw [show p.data.takeWhile (fun c => decide (c ≠ '?')) = p.data from by
      rw [← List.append_nil p.data]
      rw [takeWhile_append_all p.data [] (by
        intro a ha
        simp only [decide_eq_true_eq]
        exact (hchars a (by simpa using ha)).2.2.1)]
      simp]
    rw [show p.data.dropWhile (fun c => decide (c ≠ '?')) = [] from by
      rw [List.dropWhile_eq_nil_iff]
      intro a ha
      simp only [decide_eq_true_eq]
      exact (hchars a ha).2.2.1]
    rw [if_neg (by rw [hnoslash2]; simp)]
    rw [unescapeGo_no_pct p.data (fun hm => (hchars '%' hm).2.1 rfl)]
    rfl
  unfold parseURL
  dsimp only
  rw [hdata]
  rw [takeWhile_append_all p.data _ (by
    intro a ha
    simp only [decide_eq_true_eq]
    exact (hchars a ha).1)]
  rw [takeWhile_cons_false '#' frag.data (by simp), List.append_nil]
  rw [dropWhile_append_all p.data _ (by
    intro a ha
    simp only [decide_eq_true_eq]
    exact (hchars a ha).1)]
  rw [dropWhile_cons_false '#' frag.data (by simp)]
  rw [show List.drop 1 ('#' :: frag.data) = frag.data from rfl]
  rw [hpn]
  rw [show ((p.data ++ '#' :: frag.data).any fun c => decide (c = '#')) = true from by
    rw [List.any_eq_true]
    exact ⟨'#', List.mem_append.mpr (Or.inr (List.mem_cons_self _ _)), by simp⟩]
  rw [unescapeGo_no_pct frag.data hfrag]
  rfl

/- ### Links of the form `#fragment` -/

theorem refMatch_hash (frag : String) : refMatch ("#" ++ frag) = none := by
  unfold refMatch
  rw [show ("#" ++ frag).data = '#' :: frag.data from rfl]
  rw [show spanP regexWS ('#' :: frag.data) = ([], '#' :: frag.data) from by
    unfold spanP
    rw [if_neg (by simp [regexWS])]]
  rfl

theorem splitPathAndFragment_hash (frag : String) :
    splitPathAndFragment ("#" ++ frag) = ("", "#" ++ frag) := by
  unfold splitPathAndFragment
  rw [if_pos (by
    unfold containsCh
    rw [show ("#" ++ frag).data = '#' :: frag.data from rfl]
    simp)]
  rw [show ("#" ++ frag).data = '#' :: frag.data from rfl]
  rw [takeWhile_cons_false '#' frag.data (by simp)]
  rw [dropWhile_cons_false '#' frag.data (by simp)]
  rfl

theorem parseLink_hash (frag : String) : parseLink ("#" ++ frag) = .ok ("", "#" ++ frag, "") := by
  rw [parseLink_of_not_shortcode ("#" ++ frag) (by
    unfold isRefShortcode
    rw [refMatch_hash])]
  unfold parseLinkPlain
  rw [splitPathAndFragment_hash]
  dsimp only
  rw [if_neg (by decide), if_neg (by decide)]

theorem isAbsGo_false_of_goodPart (s : String) (h : goodPart s = true) : isAbsGo s = false := by
  obtain ⟨h1, _, _, h4⟩ := goodPart_facts s h
  unfold isAbsGo
  cases hd : s.data with
  | nil => exact absurd hd h1
  | cons c t =>
    have hc : c ≠ '/' := (plainChar_facts c (h4 c (by rw [hd]; exact List.mem_cons_self c t))).1
    split
    · rename_i heq
      injection heq with hcEq _
      exact absurd hcEq hc
    · rfl

theorem goodParts_append (ps qs : List String)
    (h1 : goodParts ps = true) (h2 : goodParts qs = true) :
    goodParts (ps ++ qs) = true := by
  unfold goodParts at h1 h2 ⊢
  rw [List.all_append, h1, h2]
  rfl

theorem hash_frag_ne_empty (frag : String) : ("#" ++ frag) ≠ "" := by
  rw [strNe_empty_iff]
  rw [show ("#" ++ frag).data = '#' :: frag.data from rfl]
  simp

theorem interCh_head_cons (ps : List (List Char)) (c : Char) (t : List Char) :
    ∃ r, interCh '/' ((c :: t) :: ps) = c :: r := by
  cases ps with
  | nil => exact ⟨t, rfl⟩
  | cons q qs => exact ⟨t ++ '/' :: interCh '/' (q :: qs), rfl⟩

/-- C4 (amended): a link with empty path and non-empty fragment on a
localized page resolves to the page's own absolute path with that
fragment attached — provided the page sits at a well-formed location of
the content tree, the fragment is free of percent escapes, and no
directory named like the page without its `.md` extension exists (such a
directory diverts resolution to its `_index.md`, see the
counterexample). -/
theorem c4_self_anchor_resolves_to_own_page (cfg : Config) (fs : FS) (p : Page)
    (cdParts dirs : List String) (lang name frag : String) (n : Nat)
    (hCd : joinGo [cfg.root, cfg.hugoFolder, "content"] = mkAbs cdParts)
    (hCdGood : goodParts cdParts = true) (hCdNe : cdParts ≠ [])
    (hLangGood : goodPart lang = true)
    (hDirsGood : goodParts dirs = true)
    (hNameGood : goodPart name = true)
    (hHugo : p.isHugoPage = true)
    (hLang : p.hugoLanguage = lang)
    (hHugoPath : p.hugoPath = mkAbs (dirs ++ [name ++ ".md"]))
    (hPath : p.path = mkAbs (cdParts ++ [lang] ++ (dirs ++ [name ++ ".md"])))
    (hFragNe : frag ≠ "")
    (hFragPct : '%' ∉ frag.data)
    (hNotDir : isDirectory fs (mkAbs (cdParts ++ [lang] ++ (dirs ++ [name]))) = .ok false) :
    addLink cfg fs p ("#" ++ frag) n =
      { p with links := p.links ++
          [{ rawLink := "#" ++ frag, lineNumber := n, fatalError := "",
             URL := some { scheme := "", host := "", path := p.path, rawQuery := "",
                           fragment := frag } }] } := by
  obtain ⟨hn1, hn2, hn3, hn4⟩ := goodPart_facts name hNameGood
  have hlastne : (name ++ ".md").data ≠ [] := by
    rw [strAppend_data]
    simp [hn1]
  have hlastsf : '/' ∉ (name ++ ".md").data := by
    rw [strAppend_data]
    intro hm
    rcases List.mem_append.mp hm with h | h
    · exact goodPart_slashFree name hNameGood h
    · simp at h
  have hbase : trimSuffixGo (baseGo p.hugoPath) ".md" = name := by
    rw [hHugoPath, baseGo_mkAbs dirs (name ++ ".md") hlastne hlastsf hDirsGood]
    exact trimSuffixGo_of_append name ".md"
  have hnameabs : isAbsGo name = false := isAbsGo_false_of_goodPart name hNameGood
  have hpath2 : joinGo [dirGo p.hugoPath, name] = mkAbs (dirs ++ [name]) := by
    rw [hHugoPath, dirGo_mkAbs dirs (name ++ ".md") hlastne hlastsf hDirsGood]
    cases dirs with
    | nil =>
      rw [if_pos rfl]
      exact joinGo_root name hNameGood
    | cons d ds =>
      rw [if_neg (by simp)]
      exact joinGo_two_abs (d :: ds) name hDirsGood (by simp) hNameGood
  have hnamegoods : goodParts [name] = true := by
    unfold goodParts
    simp [hNameGood]
  have hallgood : goodParts (cdParts ++ [lang] ++ (dirs ++ [name])) = true :=
    goodParts_append _ _ (goodParts_append cdParts [lang] hCdGood (by
      unfold goodParts
      simp [hLangGood])) (goodParts_append dirs [name] hDirsGood hnamegoods)
  have hjoin3 : joinGo [mkAbs cdParts, lang, mkAbs (dirs ++ [name])] =
      mkAbs (cdParts ++ [lang] ++ (dirs ++ [name])) :=
    joinGo_three_abs cdParts lang (dirs ++ [name]) hCdGood hCdNe hLangGood
      (goodParts_append dirs [name] hDirsGood hnamegoods) (by simp)
  -- the resolved file path and its parse
  have hp'eq : mkAbs (cdParts ++ [lang] ++ (dirs ++ [name])) ++ ".md" = p.path := by
    rw [show cdParts ++ [lang] ++ (dirs ++ [name]) =
      (cdParts ++ [lang] ++ dirs) ++ [name] from by simp]
    rw [mkAbs_append_last (cdParts ++ [lang] ++ dirs) name ".md"]
    rw [hPath]
    rw [show cdParts ++ [lang] ++ (dirs ++ [name ++ ".md"]) =
      (cdParts ++ [lang] ++ dirs) ++ [name ++ ".md"] from by simp]
  have hp'data : (mkAbs (cdParts ++ [lang] ++ (dirs ++ [name])) ++ ".md").data =
      '/' :: (interCh '/' ((cdParts ++ [lang] ++ (dirs ++ [name])).map String.data) ++
        ['.', 'm', 'd']) := by
    rw [strAppend_data, mkAbs_data]
    rfl
  have hparse : parseURL ((mkAbs (cdParts ++ [lang] ++ (dirs ++ [name])) ++ ".md") ++
      ("#" ++ frag)) =
      .ok ⟨"", "", mkAbs (cdParts ++ [lang] ++ (dirs ++ [name])) ++ ".md", "", frag⟩ := by
    rw [show (mkAbs (cdParts ++ [lang] ++ (dirs ++ [name])) ++ ".md") ++ ("#" ++ frag) =
      (mkAbs (cdParts ++ [lang] ++ (dirs ++ [name])) ++ ".md") ++ "#" ++ frag from by
      apply String.ext
      rw [strAppend_data, strAppend_data, strAppend_data, strAppend_data]
      simp]
    exact parseURL_abs_file _ frag
      (by
        intro c hc
        rw [hp'data] at hc
        rcases List.mem_cons.mp hc with rfl | hc2
        · refine ⟨by decide, by decide, by decide, by decide⟩
        · rcases List.mem_append.mp hc2 with hc3 | hc4
          · rcases mem_interCh c '/' _ hc3 with rfl | ⟨q, hq, hcq⟩
            · refine ⟨by decide, by decide, by decide, by decide⟩
            · obtain ⟨s, hs, rfl⟩ := List.mem_map.mp hq
              have := plainChar_facts c
                ((goodPart_facts s (goodParts_mem _ hallgood s hs)).2.2.2 c hcq)
              exact ⟨this.2.1, this.2.2.1, this.2.2.2.1, this.2.2.2.2⟩
          · fin_cases hc4 <;> refine ⟨by decide, by decide, by decide, by decide⟩)
      (by rw [hp'data]; exact ⟨_, rfl⟩)
      (by
        rw [hp'data]
        obtain ⟨c0, cs0, hc0⟩ : ∃ c0 cs0, cdParts = c0 :: cs0 := by
          cases hcp : cdParts with
          | nil => exact absurd hcp hCdNe
          | cons a t => exact ⟨a, t, rfl⟩
        obtain ⟨ch, cht, hch⟩ : ∃ ch cht, c0.data = ch :: cht := by
          cases hcd : c0.data with
          | nil =>
            exact absurd hcd (goodPart_facts c0 (goodParts_mem _ hCdGood c0
              (by rw [hc0]; exact List.mem_cons_self _ _))).1
          | cons a t => exact ⟨a, t, rfl⟩
        have hchns : ch ≠ '/' := (plainChar_facts ch
          ((goodPart_facts c0 (goodParts_mem _ hCdGood c0
            (by rw [hc0]; exact List.mem_cons_self _ _))).2.2.2 ch
            (by rw [hch]; exact List.mem_cons_self _ _))).1
        rw [hc0]
        rw [show ((c0 :: cs0) ++ [lang] ++ (dirs ++ [name])).map String.data =
          c0.data :: ((cs0 ++ [lang] ++ (dirs ++ [name])).map String.data) from by simp]
        rw [hch]
        obtain ⟨r, hr⟩ := interCh_head_cons ((cs0 ++ [lang] ++ (dirs ++ [name])).map
          String.data) ch cht
        rw [hr]
        show (decide ('/' = '/') && isPrefL ['/'] (ch :: (r ++ ['.', 'm', 'd']))) = false
        rw [show (decide ('/' = '/')) = true from by decide, Bool.true_and]
        show (decide ('/' = ch) && isPrefL [] (r ++ ['.', 'm', 'd'])) = false
        rw [decide_eq_false (fun h => hchns h.symm)]
        rfl)
      hFragPct
  -- unfold addLink and walk the branches
  simp only [List.append_assoc, List.singleton_append] at hNotDir hjoin3 hp'eq hparse
  rw [hp'eq] at hparse
  unfold addLink
  simp [parseURL_hash frag hFragPct, parseLink_hash frag, hHugo, hbase, hnameabs, hpath2,
    hCd, hLang, hjoin3, hNotDir, hp'eq, hparse, hash_frag_ne_empty frag]

/-- Counterexample for C4 as stated: with a directory
`.../folder/test` sitting next to the page `.../folder/test.md`, the
self-anchor `#anchor` resolves to `.../folder/test/_index.md#anchor`,
not to the page's own path. -/
theorem c4_counterexample_directory_shadow :
    (addLink cfgFix fsShadowDir
      (newPage cfgFix "/root/hugo/content/en/folder/test.md") "#anchor" 3).links =
      [{ rawLink := "#anchor", lineNumber := 3, fatalError := "",
         URL := some ⟨"", "", "/root/hugo/content/en/folder/test/_index.md", "", "anchor"⟩ }] ∧
    "/root/hugo/content/en/folder/test/_index.md" ≠
      (newPage cfgFix "/root/hugo/content/en/folder/test.md").path :=
  ⟨rfl, by decide⟩

/-- Witness for C4 (amended): `#anchor` on `/root/hugo/content/en/d/t.md`
resolves to that very path with fragment `anchor`. -/
theorem c4_self_anchor_resolves_to_own_page_witness :
    joinGo [cfgFix.root, cfgFix.hugoFolder, "content"] = mkAbs ["root", "hugo", "content"] ∧
    (newPage cfgFix "/root/hugo/content/en/d/t.md").isHugoPage = true ∧
    (newPage cfgFix "/root/hugo/content/en/d/t.md").hugoLanguage = "en" ∧
    (newPage cfgFix "/root/hugo/content/en/d/t.md").hugoPath = mkAbs (["d"] ++ ["t" ++ ".md"]) ∧
    (newPage cfgFix "/root/hugo/content/en/d/t.md").path =
      mkAbs (["root", "hugo", "content"] ++ ["en"] ++ (["d"] ++ ["t" ++ ".md"])) ∧
    isDirectory fsEmpty (mkAbs (["root", "hugo", "content"] ++ ["en"] ++ (["d"] ++ ["t"]))) =
      .ok false ∧
    addLink cfgFix fsEmpty (newPage cfgFix "/root/hugo/content/en/d/t.md") ("#" ++ "anchor") 3 =
      { newPage cfgFix "/root/hugo/content/en/d/t.md" with links :=
          (newPage cfgFix "/root/hugo/content/en/d/t.md").links ++
          [{ rawLink := "#" ++ "anchor", lineNumber := 3, fatalError := "",
             URL := some { scheme := "", host := "",
                           path := (newPage cfgFix "/root/hugo/content/en/d/t.md").path,
                           rawQuery := "", fragment := "anchor" } }] } :=
  ⟨rfl, by decide, by decide, by decide, by decide, rfl,
   c4_self_anchor_resolves_to_own_page cfgFix fsEmpty
     (newPage cfgFix "/root/hugo/content/en/d/t.md") ["root", "hugo", "content"] ["d"]
     "en" "t" "anchor" 3 rfl (by decide) (by decide) (by decide) (by decide) (by decide)
     (by decide) (by decide) (by decide) (by decide) (by decide) (by decide) rfl⟩
